import Mathlib

/-!
Verification development for the goRedisPlus repository.

Shallow embedding of the components the claims concern:
* the cluster command dispatcher (`cluster/cluster.go`: `Exec`, `isAuthenticated`),
* the expiry time wheel (`timewheel`: `New`, `AddJob`, `addTask`, `getPositionAndCircle`),
* the consistent-hash ring (`consistenthash`: `getPartitionKey`, `AddNode`, `PickNode`),
* the QuickList paged deque (`datastruct/list`: `Add`, `find`, iterator operations,
  `Insert`, `Set`, `Remove`, `RemoveLast`, `RemoveByVal`, `ReverseRemoveByVal`,
  `RemoveAllByVal`).

Conventions:
* Go code that can panic is modelled by `Option`-valued functions; `none` means the
  original code faults (index/slice out of range, nil dereference, division by zero).
* Go byte strings that are inspected byte-wise (hash keys) are `List Nat` (byte values);
  strings only compared for equality (command names, node ids, error text) are `String`.
* Go machine integers are modelled by `Nat` on control paths where the original values
  are provably non-negative, and by `Int` where sign matters; comments at each
  definition record the correspondence.
-/

namespace GoRedis

/-! ### Cluster dispatcher (`cluster/cluster.go`) -/

/-- Per-client connection state used by `Exec`: the password the client supplied via
`AUTH` (`Connection.GetPassword`) and whether it is inside a `MULTI` block
(`Connection.InMultiState`). -/
structure Conn where
  password : String
  inMulti : Bool

/-- Replies produced by the dispatcher.  `errReply s` is `protocol.MakeErrReply s`,
`unknownErr` is `protocol.UnknownErrReply` (`-ERR unknown`), `argNumErr c` is
`protocol.MakeArgNumErrReply c`, and `val` tags any other reply value produced by a
command handler. -/
inductive GReply where
  | errReply (msg : String)
  | unknownErr
  | argNumErr (cmd : String)
  | val (tag : Nat)
deriving DecidableEq, Repr

/-- A command handler outcome: the possibly-updated keyspace plus either a reply
(`Except.ok`) or a Go panic (`Except.error ()`), which `Exec`'s deferred `recover`
turns into `UnknownErrReply`. -/
abbrev HandlerResult (DB : Type) := DB × Except Unit GReply

/-- The collaborators `Exec` calls into.  These live in packages outside the provided
sources (`database2.Info`, `database2.Auth`, `database2.StartMulti`,
`database2.DiscardMulti`, `execMulti`, `database2.EnqueueCmd`, and the command
`router` map), so they are abstract parameters: any behaviour of the real functions,
including panicking, is an instance.  `dbIsServer` models the type assertion
`cluster.db.(*database2.Server)` succeeding (in `MakeCluster` the db is
`database2.NewStandaloneServer()`). -/
structure ClusterDeps (DB : Type) where
  dbIsServer : Bool
  infoFn : List String → DB → HandlerResult DB
  authFn : Conn → List String → DB → HandlerResult DB
  startMulti : Conn → DB → HandlerResult DB
  discardMulti : Conn → DB → HandlerResult DB
  execMulti : Conn → DB → HandlerResult DB
  enqueueCmd : Conn → List String → DB → HandlerResult DB
  router : String → Option (Conn → List String → DB → HandlerResult DB)

/-- `strings.ToLower`, restricted to the ASCII command names `Exec` compares
against (characterwise `Char.toLower` over the string's character list). -/
def goToLower (s : String) : String := ⟨s.data.map Char.toLower⟩

/-- `isAuthenticated` (cluster/cluster.go:132-137): true when `requirepass` is empty
or the connection's stored password equals it. -/
def isAuthenticated (requirePass : String) (c : Conn) : Bool :=
  if requirePass = "" then true else c.password = requirePass

/-- The body of `Cluster.Exec` (cluster/cluster.go:140-187) without the deferred
`recover`: dispatch on the lower-cased command name.  An empty command line panics at
`cmdLine[0]` (`Except.error`).  Note the source checks `info` *before* the
`isAuthenticated` gate. -/
def clusterExecBody {DB : Type} (deps : ClusterDeps DB) (requirePass : String)
    (c : Conn) (cmdLine : List String) (db : DB) : HandlerResult DB :=
  match cmdLine with
  | [] => (db, Except.error ())
  | c0 :: rest =>
    let cmdName := goToLower c0
    if cmdName = "info" ∧ deps.dbIsServer then deps.infoFn rest db
    else if cmdName = "auth" then deps.authFn c rest db
    else if ¬ isAuthenticated requirePass c then
      (db, Except.ok (GReply.errReply "NOAUTH Authentication required"))
    else if cmdName = "multi" then
      if cmdLine.length ≠ 1 then (db, Except.ok (GReply.argNumErr cmdName))
      else deps.startMulti c db
    else if cmdName = "discard" then
      if cmdLine.length ≠ 1 then (db, Except.ok (GReply.argNumErr cmdName))
      else deps.discardMulti c db
    else if cmdName = "exec" then
      if cmdLine.length ≠ 1 then (db, Except.ok (GReply.argNumErr cmdName))
      else deps.execMulti c db
    else if cmdName = "select" then
      (db, Except.ok (GReply.errReply "select not supported in cluster"))
    else if c.inMulti then deps.enqueueCmd c cmdLine db
    else
      match deps.router cmdName with
      | none =>
        (db, Except.ok (GReply.errReply
          ("ERR unknown command '" ++ cmdName ++ "', or not supported in cluster mode")))
      | some f => f c cmdLine db

/-- `Cluster.Exec` (cluster/cluster.go:140-146): the body wrapped in the deferred
`recover` that converts any panic into `protocol.UnknownErrReply`. -/
def clusterExec {DB : Type} (deps : ClusterDeps DB) (requirePass : String)
    (c : Conn) (cmdLine : List String) (db : DB) : DB × GReply :=
  match clusterExecBody deps requirePass c cmdLine db with
  | (db', Except.ok r) => (db', r)
  | (db', Except.error _) => (db', GReply.unknownErr)

/-! ### Time wheel (`lib/timewheel/timewheel.go`) -/

/-- A scheduled task.  `circle` is the remaining-rounds counter computed by
`getPositionAndCircle`; `job` is an opaque identifier standing for the `func()`
closure; `id` models the identity of the `*list.Element` returned by `PushBack`
(fresh ids play the role of stable element pointers). -/
structure TWTask where
  key : String
  circle : Nat
  job : Nat
  id : Nat
deriving DecidableEq, Repr

/-- An entry of `TimeWheel.timer`: the slot a task sits in and the element (`etask`)
inside that slot's linked list, identified by its id. -/
structure TWLocation where
  slot : Nat
  id : Nat
deriving DecidableEq, Repr

/-- `TimeWheel` state.  `interval` is `time.Duration` in nanoseconds; the ticker,
channels and goroutine plumbing are not part of the state the claims concern.
All numeric fields that the Go code keeps in `int`/`int64` are non-negative on every
path modelled here (`New` requires positive `interval` and `slotNum`, `AddJob`
rejects negative delays, `currentPos` stays in `[0, slotNum)`), so they are `Nat`.
`nextId` is the model's supply of fresh element identities. -/
structure TimeWheel where
  interval : Nat
  slots : List (List TWTask)
  timer : List (String × TWLocation)
  currentPos : Nat
  slotNum : Nat
  nextId : Nat
deriving Repr, DecidableEq

/-- Go map lookup on the association-list model of `timer`. -/
def twLookup (m : List (String × TWLocation)) (k : String) : Option TWLocation :=
  (m.find? (fun e => e.1 = k)).map (·.2)

/-- Go map assignment `m[k] = v` (insert or overwrite). -/
def twInsert (m : List (String × TWLocation)) (k : String) (v : TWLocation) :
    List (String × TWLocation) :=
  (k, v) :: m.filter (fun e => e.1 ≠ k)

/-- Go map deletion `delete(m, k)`. -/
def twErase (m : List (String × TWLocation)) (k : String) :
    List (String × TWLocation) :=
  m.filter (fun e => e.1 ≠ k)

/-- `New` (timewheel.go:147-165): returns `nil` for non-positive `interval` or
`slotNum`, otherwise a wheel with `slotNum` fresh empty buckets (`initSlots`),
`currentPos = 0` and an empty `timer` map.  Arguments are `Int` because the Go
parameters (`time.Duration`, `int`) are signed. -/
def TimeWheel.New (interval : Int) (slotNum : Int) : Option TimeWheel :=
  if interval ≤ 0 ∨ slotNum ≤ 0 then none
  else some
    { interval := interval.toNat
      slots := List.replicate slotNum.toNat []
      timer := []
      currentPos := 0
      slotNum := slotNum.toNat
      nextId := 0 }

/-- A job request as sent on `addTaskChannel`. -/
structure TWTaskReq where
  delay : Nat
  key : String
  job : Nat
deriving DecidableEq, Repr

/-- `AddJob` (timewheel.go:184-190): a negative delay returns without sending
anything on `addTaskChannel`; otherwise the task request is emitted (and will be
handled by `addTask`).  `none` models "nothing scheduled". -/
def TimeWheel.AddJob (delay : Int) (key : String) (job : Nat) : Option TWTaskReq :=
  if delay < 0 then none
  else some { delay := delay.toNat, key := key, job := job }

/-- `getPositionAndCircle` (timewheel.go:272-279).
`delaySeconds = int(d.Seconds())` and `intervalSeconds = int(tw.interval.Seconds())`
truncate to whole seconds, modelled by `Nat` division by `10^9` (both durations are
non-negative here; float64 rounding of `Seconds()` is modelled as exact).
Go's integer division panics when the divisor is zero: `intervalSeconds = 0`
(any interval below one second) or `slotNum = 0` yields `none`. -/
def TimeWheel.getPositionAndCircle (tw : TimeWheel) (d : Nat) : Option (Nat × Nat) :=
  let delaySeconds := d / 1000000000
  let intervalSeconds := tw.interval / 1000000000
  if intervalSeconds = 0 ∨ tw.slotNum = 0 then none
  else
    some ((tw.currentPos + delaySeconds / intervalSeconds) % tw.slotNum,
          delaySeconds / intervalSeconds / tw.slotNum)

/-- `removeTask` (timewheel.go:281-289): look up the key's location, remove that
element from its slot's list, drop the timer entry.  An out-of-range stored slot
would make `tw.slots[pos.slot]` panic (`none`). -/
def TimeWheel.removeTask (tw : TimeWheel) (key : String) : Option TimeWheel :=
  match twLookup tw.timer key with
  | none => some tw
  | some loc =>
    match tw.slots[loc.slot]? with
    | none => none
    | some l =>
      some { tw with
              slots := tw.slots.set loc.slot (l.filter (fun t => t.id ≠ loc.id))
              timer := twErase tw.timer key }

/-- `addTask` (timewheel.go:254-270): compute position and circle (which can panic,
see `getPositionAndCircle`), `PushBack` the task onto `slots[pos]`, remove a
previously-registered task with the same non-empty key, and record the new location
in `timer` (the source stores the location unconditionally, even for an empty key). -/
def TimeWheel.addTask (tw : TimeWheel) (req : TWTaskReq) : Option TimeWheel :=
  match tw.getPositionAndCircle req.delay with
  | none => none
  | some (pos, circ) =>
    match tw.slots[pos]? with
    | none => none
    | some l =>
      let t : TWTask := { key := req.key, circle := circ, job := req.job, id := tw.nextId }
      let loc : TWLocation := { slot := pos, id := t.id }
      let tw1 := { tw with
                    slots := tw.slots.set pos (l ++ [t])
                    nextId := tw.nextId + 1 }
      let tw2 :=
        if req.key ≠ "" ∧ (twLookup tw1.timer req.key).isSome then
          tw1.removeTask req.key
        else
          some tw1
      tw2.map (fun tw' => { tw' with timer := twInsert tw'.timer req.key loc })

/-- Well-formedness of a wheel as produced by `New` and preserved by `addTask` /
`removeTask`: one bucket per slot, and every stored location points at an existing
slot with an element id older than the current supply. -/
def TimeWheel.WF (tw : TimeWheel) : Prop :=
  tw.slots.length = tw.slotNum ∧
  ∀ e ∈ tw.timer, e.2.slot < tw.slots.length ∧ e.2.id < tw.nextId

/-! ### Consistent-hash ring (`lib/consistenthash/consistenthash.go`) -/

/-- One step of the reflected CRC-32 (IEEE polynomial `0xEDB88320`): shift right and
conditionally xor the polynomial.  All values stay below `2^32`. -/
def crc32Step (c : Nat) : Nat :=
  if c % 2 = 1 then (c / 2) ^^^ 0xEDB88320 else c / 2

/-- `hash/crc32.ChecksumIEEE` over a byte string, bit-by-bit (no lookup table):
initial value `0xFFFFFFFF`, per byte xor-in then eight `crc32Step`s, final
complement. -/
def crc32 (data : List Nat) : Nat :=
  (data.foldl (fun c b => crc32Step^[8] (c ^^^ b)) 0xFFFFFFFF) ^^^ 0xFFFFFFFF

/-- `consistenthash.Map` (consistenthash.go:302-308).  Keys and node addresses are
Go byte strings (`List Nat`); `keys` holds the hash points (Go `int`s that are
`uint32` values, hence `Nat`), `hashMap` the point-to-node map with Go-map overwrite
semantics. -/
structure CHMap where
  hashFunc : List Nat → Nat
  replicas : Nat
  keys : List Nat
  hashMap : List (Nat × List Nat)

/-- `consistenthash.New` with the default hash (`hashFunc == nil` selects
`crc32.ChecksumIEEE`). -/
def CHMap.New (replicas : Nat) : CHMap :=
  { hashFunc := crc32, replicas := replicas, keys := [], hashMap := [] }

/-- Go map lookup `m.hashMap[h]`, returning the zero value `""` (empty byte string)
when absent. -/
def chLookup (m : List (Nat × List Nat)) (h : Nat) : List Nat :=
  ((m.find? (fun e => e.1 = h)).map (·.2)).getD []

/-- Go map assignment `m.hashMap[h] = key`. -/
def chInsert (m : List (Nat × List Nat)) (h : Nat) (v : List Nat) :
    List (Nat × List Nat) :=
  (h, v) :: m.filter (fun e => e.1 ≠ h)

/-- Decimal ASCII bytes of `i`, i.e. the bytes of Go's `strconv.Itoa(i)`. -/
def itoaBytes (i : Nat) : List Nat :=
  (Nat.toDigits 10 i).map Char.toNat

/-- Insert one physical node: `replicas` hash points `hash(Itoa(i) + key)` for
`i < replicas` (consistenthash.go:334-338). -/
def CHMap.addOneNode (m : CHMap) (key : List Nat) : CHMap :=
  if key = [] then m
  else
    (List.range m.replicas).foldl
      (fun acc i =>
        let h := acc.hashFunc (itoaBytes i ++ key)
        { acc with keys := acc.keys ++ [h], hashMap := chInsert acc.hashMap h key })
      m

/-- Insert into a sorted list, keeping it sorted ascending. -/
def insertSorted (x : Nat) : List Nat → List Nat
  | [] => [x]
  | y :: ys => if x ≤ y then x :: y :: ys else y :: insertSorted x ys

/-- `sort.Ints`, modelled by insertion sort: on integer keys every sorting
algorithm produces the same (ascending) list. -/
def sortInts (l : List Nat) : List Nat := l.foldr insertSorted []

/-- `AddNode` (consistenthash.go:329-341): add every given node key (skipping empty
ones), then re-sort the hash points (`sort.Ints`). -/
def CHMap.AddNode (m : CHMap) (nodeKeys : List (List Nat)) : CHMap :=
  let m' := nodeKeys.foldl CHMap.addOneNode m
  { m' with keys := sortInts m'.keys }

/-- `strings.Index(key, b)` for a single byte: index of the first occurrence
(`none` models `-1`). -/
def indexOfByte (b : Nat) : List Nat → Option Nat
  | [] => none
  | c :: rest => if c = b then some 0 else (indexOfByte b rest).map (· + 1)

/-- `getPartitionKey` (consistenthash.go:343-354).  `beg` is the index of the first
`'{'` (byte 123), `endIdx` the index of the first `'}'` (byte 125) *anywhere in the
key* — not merely after `beg`.  With both present, the source returns
`key[beg+1:endIdx]` unless `endIdx == beg+1`; when the first `'}'` precedes the
first `'{'` that slice has `beg+1 > endIdx` and Go panics with "slice bounds out of
range" (`none`). -/
def getPartitionKey (key : List Nat) : Option (List Nat) :=
  match indexOfByte 123 key with
  | none => some key
  | some beg =>
    match indexOfByte 125 key with
    | none => some key
    | some endIdx =>
      if endIdx = beg + 1 then some key
      else if endIdx < beg + 1 then none
      else some ((key.drop (beg + 1)).take (endIdx - (beg + 1)))

/-- `PickNode` (consistenthash.go:356-374): empty ring yields `""`; otherwise hash
the partition key, find the first hash point `≥ hash` (`sort.Search` on the sorted
`keys`, modelled by `findIdx` since the list is sorted), wrap to index 0, and
return the mapped node.  Propagates the `getPartitionKey` panic. -/
def CHMap.PickNode (m : CHMap) (key : List Nat) : Option (List Nat) :=
  if m.keys.isEmpty then some []
  else
    match getPartitionKey key with
    | none => none
    | some pk =>
      let hash := m.hashFunc pk
      let idx := m.keys.findIdx (fun x => hash ≤ x)
      let idx' := if idx = m.keys.length then 0 else idx
      match m.keys[idx']? with
      | none => none
      | some h => some (chLookup m.hashMap h)

/-- The hash tag of a key in the sense of the spec glossary, as realised by the
source: defined exactly when the key has a `'{'` and a later `'}'` with at least one
byte between them; the tag is what `getPartitionKey` then extracts. -/
def hashTagOf (key : List Nat) : Option (List Nat) :=
  match indexOfByte 123 key, indexOfByte 125 key with
  | some beg, some endIdx =>
    if beg + 1 < endIdx then some ((key.drop (beg + 1)).take (endIdx - (beg + 1)))
    else none
  | _, _ => none

/-! ### QuickList (`datastruct/list/quicklist.go`)

Pages are Go slices of `interface{}`; a page is modelled by its element list plus
its capacity.  The only place a capacity is *read* is `Add`'s full-page test
`len(backPage) == cap(backPage)`.  Where the source grows a slice beyond its
capacity (`append` reallocating, only inside `Insert`), the runtime's choice of new
capacity is abstracted by a `grow : Nat → Nat → Nat` parameter (arguments: required
length, old capacity); theorems quantify over `grow`, so every behaviour of Go's
`growslice` is covered.  `iterator` holds the index of its `*list.Element` inside
the page list (`none` models a nil pointer) and the in-page offset (Go `int`,
which `prev` drives to `-1`).  Sizes are `Nat`: on every state where the source
decrements `size` it just removed an element, so the subtraction never crosses
zero on the well-formed states the theorems speak about. -/

/-- `pageSize` (quicklist.go:6); must be even. -/
def pageSize : Nat := 1024

/-- One page: a fixed-capacity slice of elements. -/
structure Page (α : Type) where
  elems : List α
  cap : Nat
deriving Repr, DecidableEq

/-- `QuickList` (quicklist.go:10-13): the linked list of pages and the cached
element count. -/
structure QuickList (α : Type) where
  data : List (Page α)
  size : Nat
deriving Repr, DecidableEq

/-- `iterator` (quicklist.go:16-20) minus its back-pointer to the list: `node` is
the index of the current page (`none` = nil `*list.Element`), `offset` the in-page
index, ranging over `[-1, len(page)]`. -/
structure iterator where
  node : Option Nat
  offset : Int
deriving Repr, DecidableEq

/-- `l.take n ++ a :: l.drop n`: the result of the Go idiom
`append(s[:n+1], s[n:]...)` followed by `s[n] = a` (insertion at index `n`). -/
def insertAt (n : Nat) (a : α) (l : List α) : List α :=
  l.take n ++ a :: l.drop n

namespace QuickList

variable {α : Type}

/-- `NewQuickList` (quicklist.go:22-27). -/
def NewQuickList (α : Type) : QuickList α := ⟨[], 0⟩

/-- `Add` (quicklist.go:30-50): append at the tail.  Creates a fresh
capacity-`pageSize` page when the list is empty or the back page is at capacity;
otherwise appends in place (within capacity, so `cap` is unchanged). -/
def Add (ql : QuickList α) (v : α) : QuickList α :=
  match ql.data.getLast? with
  | none => ⟨[⟨[v], pageSize⟩], ql.size + 1⟩
  | some back =>
    if back.elems.length = back.cap then
      ⟨ql.data ++ [⟨[v], pageSize⟩], ql.size + 1⟩
    else
      ⟨ql.data.dropLast ++ [⟨back.elems ++ [v], back.cap⟩], ql.size + 1⟩

/-- The front-search loop of `find` (quicklist.go:64-76): walk pages forward
accumulating `pageBeg` until the page containing `index` is reached.  Running off
the list (`n = nil` dereference) is `none`. -/
def findFrontAux : List (Page α) → Nat → Nat → Nat → Option (Nat × Nat)
  | [], _, _, _ => none
  | p :: rest, idx, pageBeg, index =>
    if pageBeg + p.elems.length > index then some (idx, index - pageBeg)
    else findFrontAux rest (idx + 1) (pageBeg + p.elems.length) index

/-- The back-search loop of `find` (quicklist.go:77-89): walk pages backward
(the argument list is the reversed page list, `idx` the index of its head page)
decreasing `pageBeg` until `pageBeg ≤ index`.  `pageBeg` is `Int` because the Go
`int` can go negative when `size` and the page lengths disagree. -/
def findBackAux : List (Page α) → Nat → Int → Nat → Option (Nat × Nat)
  | [], _, _, _ => none
  | p :: rest, idx, pageBeg, index =>
    let pb := pageBeg - p.elems.length
    if pb ≤ (index : Int) then some (idx, ((index : Int) - pb).toNat)
    else findBackAux rest (idx - 1) pb index

/-- `find` (quicklist.go:54-96): page index and in-page offset of `index`,
searching from whichever end is nearer.  `index < 0 || index >= ql.size` panics in
the source; the `Nat` index covers the negative case, the guard the other. -/
def find (ql : QuickList α) (index : Nat) : Option (Nat × Nat) :=
  if index ≥ ql.size then none
  else if index < ql.size / 2 then findFrontAux ql.data 0 0 index
  else findBackAux ql.data.reverse (ql.data.length - 1) (ql.size : Int) index

/-- Pointer comparison `iter.node == iter.ql.data.Front()` (both sides may be nil). -/
def nodeIsFront (ql : QuickList α) (it : iterator) : Bool :=
  match it.node with
  | none => ql.data.isEmpty
  | some i => !ql.data.isEmpty && i = 0

/-- Pointer comparison `iter.node == iter.ql.data.Back()` (both sides may be nil). -/
def nodeIsBack (ql : QuickList α) (it : iterator) : Bool :=
  match it.node with
  | none => ql.data.isEmpty
  | some i => !ql.data.isEmpty && i + 1 = ql.data.length

/-- `iterator.page` (quicklist.go:102-104): dereference the current node. -/
def iterPage (ql : QuickList α) (it : iterator) : Option (Page α) :=
  match it.node with
  | none => none
  | some i => ql.data[i]?

/-- `iterator.get` (quicklist.go:98-100): `iter.page()[iter.offset]`; a nil node or
out-of-range offset panics. -/
def iterGet (ql : QuickList α) (it : iterator) : Option α :=
  match ql.iterPage it with
  | none => none
  | some p => if it.offset < 0 then none else p.elems[it.offset.toNat]?

/-- `iterator.next` (quicklist.go:107-122): advance within the page, or to the next
page, or park one past the end of the back page; returns whether the iterator is
still in bounds. -/
def iterNext (ql : QuickList α) (it : iterator) : Option (Bool × iterator) :=
  match ql.iterPage it with
  | none => none
  | some p =>
    if it.offset < (p.elems.length : Int) - 1 then
      some (true, { it with offset := it.offset + 1 })
    else if ql.nodeIsBack it then
      some (false, { it with offset := (p.elems.length : Int) })
    else
      some (true, { node := it.node.map (· + 1), offset := 0 })

/-- `iterator.prev` (quicklist.go:125-140): step back within the page, park at
`-1` on the front page, or move to the previous page.  `iter.node.Prev()` on a nil
or first node followed by the `.Value` dereference panics. -/
def iterPrev (ql : QuickList α) (it : iterator) : Option (Bool × iterator) :=
  if it.offset > 0 then some (true, { it with offset := it.offset - 1 })
  else if ql.nodeIsFront it then some (false, { it with offset := -1 })
  else
    match it.node with
    | none => none
    | some i =>
      if i = 0 then none
      else
        match ql.data[i - 1]? with
        | none => none
        | some p => some (true, { node := some (i - 1), offset := (p.elems.length : Int) - 1 })

/-- `iterator.atEnd` (quicklist.go:142-151). -/
def atEnd (ql : QuickList α) (it : iterator) : Bool :=
  if ql.data.length = 0 then true
  else if !ql.nodeIsBack it then false
  else
    match ql.iterPage it with
    | some p => it.offset == (p.elems.length : Int)
    | none => false

/-- `iterator.atBegin` (quicklist.go:153-161). -/
def atBegin (ql : QuickList α) (it : iterator) : Bool :=
  if ql.data.length = 0 then true
  else if !ql.nodeIsFront it then false
  else it.offset == -1

/-- `iterator.set` (quicklist.go:169-172): overwrite `page[iter.offset]`. -/
def iterSet (ql : QuickList α) (it : iterator) (v : α) : Option (QuickList α) :=
  match it.node with
  | none => none
  | some i =>
    match ql.data[i]? with
    | none => none
    | some p =>
      if it.offset < 0 ∨ (p.elems.length : Int) ≤ it.offset then none
      else some { ql with data := ql.data.set i ⟨p.elems.set it.offset.toNat v, p.cap⟩ }

/-- `iterator.remove` (quicklist.go:214-245): delete `page[iter.offset]`.  A page
left non-empty is written back (moving the node forward when the last in-page slot
was removed); an emptied page is unlinked.  Note the source's back-page branch
assumes the whole list emptied and leaves a nil node even when earlier pages
remain. -/
def iterRemove (ql : QuickList α) (it : iterator) :
    Option (α × QuickList α × iterator) :=
  match it.node with
  | none => none
  | some i =>
    match ql.data[i]? with
    | none => none
    | some p =>
      if it.offset < 0 then none
      else
        let o := it.offset.toNat
        match p.elems[o]? with
        | none => none
        | some val =>
          let page' := p.elems.take o ++ p.elems.drop (o + 1)
          if 0 < page'.length then
            let ql' : QuickList α :=
              { data := ql.data.set i ⟨page', p.cap⟩, size := ql.size - 1 }
            if o = page'.length then
              if !ql.nodeIsBack it then some (val, ql', { node := some (i + 1), offset := 0 })
              else some (val, ql', it)
            else some (val, ql', it)
          else
            if ql.nodeIsBack it then
              some (val, { data := ql.data.eraseIdx i, size := ql.size - 1 },
                    { node := none, offset := 0 })
            else
              some (val, { data := ql.data.eraseIdx i, size := ql.size - 1 },
                    { node := some i, offset := 0 })

/-- `Get` is `find` + `iterator.get` (quicklist.go:164-167). -/
def Get (ql : QuickList α) (index : Nat) : Option α :=
  match ql.find index with
  | none => none
  | some (i, o) => ql.iterGet { node := some i, offset := (o : Int) }

/-- `Set` (quicklist.go:175-178). -/
def Set (ql : QuickList α) (index : Nat) (v : α) : Option (QuickList α) :=
  match ql.find index with
  | none => none
  | some (i, o) => ql.iterSet { node := some i, offset := (o : Int) } v

/-- `Remove` (quicklist.go:248-251). -/
def Remove (ql : QuickList α) (index : Nat) : Option (α × QuickList α) :=
  match ql.find index with
  | none => none
  | some (i, o) =>
    match ql.iterRemove { node := some i, offset := (o : Int) } with
    | none => none
    | some (val, ql', _) => some (val, ql')

/-- `Len` (quicklist.go:254-256). -/
def Len (ql : QuickList α) : Nat := ql.size

/-- `RemoveLast` (quicklist.go:259-274): returns `nil` (here `none`) on an empty
list, otherwise pops the last element, unlinking the back page if it held only
that element. -/
def RemoveLast (ql : QuickList α) : Option (Option α × QuickList α) :=
  if ql.Len = 0 then some (none, ql)
  else
    match ql.data.getLast? with
    | none => none
    | some lastPage =>
      match lastPage.elems.getLast? with
      | none => none
      | some val =>
        if lastPage.elems.length = 1 then
          some (some val, ⟨ql.data.dropLast, ql.size - 1⟩)
        else
          some (some val,
            ⟨ql.data.dropLast ++ [⟨lastPage.elems.dropLast, lastPage.cap⟩], ql.size - 1⟩)

/-- `Insert` (quicklist.go:180-212).  `index = size` appends via `Add`.  Insertion
into a page below `pageSize` shifts in place (`insertAt`).  A full page is split:
the second half is copied into a fresh node placed right after the current one, the
first half keeps the original backing array, and the value goes into the half that
contains the offset. -/
def Insert (grow : Nat → Nat → Nat) (ql : QuickList α) (index : Nat) (v : α) :
    Option (QuickList α) :=
  if index = ql.size then some (ql.Add v)
  else
    match ql.find index with
    | none => none
    | some (i, o) =>
      match ql.data[i]? with
      | none => none
      | some p =>
        if p.elems.length < pageSize then
          let cap' := if p.elems.length + 1 ≤ p.cap then p.cap
                      else grow (p.elems.length + 1) p.cap
          some { data := ql.data.set i ⟨insertAt o v p.elems, cap'⟩, size := ql.size + 1 }
        else
          let firstHalf := p.elems.take (pageSize / 2)
          let secondHalf := p.elems.drop (pageSize / 2)
          let nextCap := grow secondHalf.length 0
          if o < pageSize / 2 then
            let cap' := if pageSize / 2 + 1 ≤ p.cap then p.cap else grow (pageSize / 2 + 1) p.cap
            some { data := insertAt (i + 1) ⟨secondHalf, nextCap⟩
                     (ql.data.set i ⟨insertAt o v firstHalf, cap'⟩),
                   size := ql.size + 1 }
          else
            let j := o - pageSize / 2
            let cap'' := if secondHalf.length + 1 ≤ nextCap then nextCap
                         else grow (secondHalf.length + 1) nextCap
            some { data := insertAt (i + 1) ⟨insertAt j v secondHalf, cap''⟩
                     (ql.data.set i ⟨firstHalf, p.cap⟩),
                   size := ql.size + 1 }

/-- The scan loop of `RemoveAllByVal` (quicklist.go:280-287), with fuel: `none` is
a panic inside the body or fuel exhaustion; a real terminating execution of `n`
iterations is reproduced exactly by any fuel `> n`. -/
def ravLoop (pred : α → Bool) :
    Nat → QuickList α → iterator → Nat → Option (QuickList α × Nat)
  | 0, _, _, _ => none
  | fuel + 1, ql, it, removed =>
    if ql.atEnd it then some (ql, removed)
    else
      match ql.iterGet it with
      | none => none
      | some v =>
        if pred v then
          match ql.iterRemove it with
          | none => none
          | some (_, ql', it') => ravLoop pred fuel ql' it' (removed + 1)
        else
          match ql.iterNext it with
          | none => none
          | some (_, it') => ravLoop pred fuel ql it' removed

/-- `RemoveAllByVal` (quicklist.go:276-289): note the source calls `find(0)` with
no empty-list guard. -/
def RemoveAllByVal (pred : α → Bool) (fuel : Nat) (ql : QuickList α) :
    Option (QuickList α × Nat) :=
  match ql.find 0 with
  | none => none
  | some (i, o) => ravLoop pred fuel ql { node := some i, offset := (o : Int) } 0

/-- The scan loop of `RemoveByVal` (quicklist.go:298-309): like `ravLoop` but
breaking once `removed` reaches `count` (a Go `int`, possibly non-positive, in
which case the break never fires). -/
def rbvLoop (pred : α → Bool) (count : Int) :
    Nat → QuickList α → iterator → Nat → Option (QuickList α × Nat)
  | 0, _, _, _ => none
  | fuel + 1, ql, it, removed =>
    if ql.atEnd it then some (ql, removed)
    else
      match ql.iterGet it with
      | none => none
      | some v =>
        if pred v then
          match ql.iterRemove it with
          | none => none
          | some (_, ql', it') =>
            if ((removed + 1 : Nat) : Int) = count then some (ql', removed + 1)
            else rbvLoop pred count fuel ql' it' (removed + 1)
        else
          match ql.iterNext it with
          | none => none
          | some (_, it') => rbvLoop pred count fuel ql it' removed

/-- `RemoveByVal` (quicklist.go:293-311). -/
def RemoveByVal (pred : α → Bool) (count : Int) (fuel : Nat) (ql : QuickList α) :
    Option (QuickList α × Nat) :=
  if ql.size = 0 then some (ql, 0)
  else
    match ql.find 0 with
    | none => none
    | some (i, o) => rbvLoop pred count fuel ql { node := some i, offset := (o : Int) } 0

/-- The scan loop of `ReverseRemoveByVal` (quicklist.go:319-329): scan backwards;
after a removal that does not hit the count, the source still runs `iter.prev()`
before the next test. -/
def rrbvLoop (pred : α → Bool) (count : Int) :
    Nat → QuickList α → iterator → Nat → Option (QuickList α × Nat)
  | 0, _, _, _ => none
  | fuel + 1, ql, it, removed =>
    if ql.atBegin it then some (ql, removed)
    else
      match ql.iterGet it with
      | none => none
      | some v =>
        if pred v then
          match ql.iterRemove it with
          | none => none
          | some (_, ql', it') =>
            if ((removed + 1 : Nat) : Int) = count then some (ql', removed + 1)
            else
              match ql'.iterPrev it' with
              | none => none
              | some (_, it'') => rrbvLoop pred count fuel ql' it'' (removed + 1)
        else
          match ql.iterPrev it with
          | none => none
          | some (_, it') => rrbvLoop pred count fuel ql it' removed

/-- `ReverseRemoveByVal` (quicklist.go:313-330). -/
def ReverseRemoveByVal (pred : α → Bool) (count : Int) (fuel : Nat) (ql : QuickList α) :
    Option (QuickList α × Nat) :=
  if ql.size = 0 then some (ql, 0)
  else
    match ql.find (ql.size - 1) with
    | none => none
    | some (i, o) => rrbvLoop pred count fuel ql { node := some i, offset := (o : Int) } 0

/-- The element sequence a QuickList represents. -/
def flatten (ql : QuickList α) : List α := (ql.data.map Page.elems).flatten

/-- Total number of elements stored in a list of pages. -/
def pagesLen (l : List (Page α)) : Nat := (l.map (fun p => p.elems.length)).sum

/-- The structural invariant of claim C4: the cached `size` is the sum of the page
lengths, and no page is empty. -/
def SizeInv (ql : QuickList α) : Prop :=
  ql.size = pagesLen ql.data ∧ ∀ p ∈ ql.data, p.elems ≠ []

/-- The conclusion of claim C3: every page except the last holds exactly
`pageSize` elements. -/
def InteriorFull (ql : QuickList α) : Prop :=
  ∀ i p, i + 1 < ql.data.length → ql.data[i]? = some p → p.elems.length = pageSize

/-- States reachable by the eight public mutating operations of claim C3/C4,
starting from `NewQuickList`.  Loop-based operations contribute a state exactly
when some fuel makes them terminate (which reproduces every terminating execution
of the source); a `none` (panic) contributes nothing. -/
inductive Reachable : QuickList α → Prop where
  | new : Reachable (NewQuickList α)
  | add (ql : QuickList α) (v : α) : Reachable ql → Reachable (ql.Add v)
  | insert (grow : Nat → Nat → Nat) (ql : QuickList α) (index : Nat) (v : α)
      (ql' : QuickList α) :
      Reachable ql → Insert grow ql index v = some ql' → Reachable ql'
  | set (ql : QuickList α) (index : Nat) (v : α) (ql' : QuickList α) :
      Reachable ql → Set ql index v = some ql' → Reachable ql'
  | remove (ql : QuickList α) (index : Nat) (val : α) (ql' : QuickList α) :
      Reachable ql → Remove ql index = some (val, ql') → Reachable ql'
  | removeLast (ql : QuickList α) (val : Option α) (ql' : QuickList α) :
      Reachable ql → RemoveLast ql = some (val, ql') → Reachable ql'
  | removeByVal (pred : α → Bool) (count : Int) (fuel : Nat) (ql ql' : QuickList α)
      (r : Nat) :
      Reachable ql → RemoveByVal pred count fuel ql = some (ql', r) → Reachable ql'
  | reverseRemoveByVal (pred : α → Bool) (count : Int) (fuel : Nat)
      (ql ql' : QuickList α) (r : Nat) :
      Reachable ql → ReverseRemoveByVal pred count fuel ql = some (ql', r) → Reachable ql'
  | removeAllByVal (pred : α → Bool) (fuel : Nat) (ql ql' : QuickList α) (r : Nat) :
      Reachable ql → RemoveAllByVal pred fuel ql = some (ql', r) → Reachable ql'

/-- States reachable when only `Add`, `Set` and `RemoveLast` are used (the
operations that do preserve full interior pages). -/
inductive ReachableASR : QuickList α → Prop where
  | new : ReachableASR (NewQuickList α)
  | add (ql : QuickList α) (v : α) : ReachableASR ql → ReachableASR (ql.Add v)
  | set (ql : QuickList α) (index : Nat) (v : α) (ql' : QuickList α) :
      ReachableASR ql → Set ql index v = some ql' → ReachableASR ql'
  | removeLast (ql : QuickList α) (val : Option α) (ql' : QuickList α) :
      ReachableASR ql → RemoveLast ql = some (val, ql') → ReachableASR ql'

end QuickList

/-- A simplest admissible slice-growth function: exactly the required length. -/
def growExact : Nat → Nat → Nat := fun needed _ => needed

/-- `n` successive `Add`s of the value `0` (used to build concrete lists). -/
def addN : Nat → QuickList Nat → QuickList Nat
  | 0, ql => ql
  | n + 1, ql => (addN n ql).Add 0

/-- The list obtained from 1024 `Add`s followed by `Insert 0 99` under `growExact`:
two pages of 513 and 512 elements — the first page is not last and not full. -/
def qlC3 : QuickList Nat :=
  ⟨[⟨99 :: List.replicate 512 0, 1024⟩, ⟨List.replicate 512 0, 512⟩], 1025⟩

/-- The two-page list `[[1], [5]]` on which `RemoveAllByVal` with predicate
`(· == 5)` dereferences a nil node (claim C9). -/
def qlC9 : QuickList Nat := ⟨[⟨[1], 1024⟩, ⟨[5], 1024⟩], 2⟩

/-- Predicate matching exactly the element `5`. -/
def predC9 : Nat → Bool := fun x => x == 5

/-- An unauthenticated connection outside a MULTI block. -/
def connAnon : Conn := ⟨"", false⟩

/-- Concrete dispatcher collaborators over `DB := Nat`: the db is a
`*database2.Server` (as in `MakeCluster`), `Info` returns a distinguishable reply,
and the router knows no commands. -/
def depsC1 : ClusterDeps Nat :=
  { dbIsServer := true
    infoFn := fun _ db => (db, Except.ok (GReply.val 7))
    authFn := fun _ _ db => (db, Except.ok (GReply.val 1))
    startMulti := fun _ db => (db, Except.ok (GReply.val 2))
    discardMulti := fun _ db => (db, Except.ok (GReply.val 3))
    execMulti := fun _ db => (db, Except.ok (GReply.val 4))
    enqueueCmd := fun _ _ db => (db, Except.ok (GReply.val 5))
    router := fun _ => none }

/-- Like `depsC1` but with one registered command whose handler panics. -/
def depsC8 : ClusterDeps Nat :=
  { depsC1 with
    router := fun n => if n = "boom" then some (fun _ _ db => (db, Except.error ())) else none }

/-- A one-node ring built by `AddNode` from `New` with the default CRC-32 hash. -/
def ringC6 : CHMap := (CHMap.New 1).AddNode [[65]]

/-- The wheel `New(1s, 4)` evaluates to. -/
def twC10 : TimeWheel :=
  { interval := 1000000000, slots := List.replicate 4 [], timer := [],
    currentPos := 0, slotNum := 4, nextId := 0 }

/-- The wheel `New(500ms, 4)` evaluates to: `New` accepts it, yet every
`getPositionAndCircle` on it divides by `int((500ms).Seconds()) = 0`. -/
def twC5 : TimeWheel :=
  { interval := 500000000, slots := List.replicate 4 [], timer := [],
    currentPos := 0, slotNum := 4, nextId := 0 }

/-! ## Theorems -/

/-- C10: `New(interval, slotNum)` returns nil exactly when `interval ≤ 0` or
`slotNum ≤ 0`; otherwise the wheel has `slotNum` empty buckets and cursor `0`;
and `AddJob` with a negative delay schedules nothing. -/
theorem timewheel_new_addjob_guard :
    ∀ i s : Int,
      (TimeWheel.New i s = none ↔ i ≤ 0 ∨ s ≤ 0) ∧
      (∀ tw, TimeWheel.New i s = some tw →
        tw.currentPos = 0 ∧ tw.slots = List.replicate s.toNat [] ∧
        tw.slots.length = s.toNat ∧ ∀ b ∈ tw.slots, b = []) ∧
      (∀ (d : Int) (k : String) (j : Nat), TimeWheel.AddJob d k j = none ↔ d < 0) := by
  intro i s
  refine ⟨?_, ?_, ?_⟩
  · by_cases h : i ≤ 0 ∨ s ≤ 0 <;> simp [TimeWheel.New, h]
  · intro tw h
    by_cases hc : i ≤ 0 ∨ s ≤ 0
    · simp [TimeWheel.New, hc] at h
    · simp [TimeWheel.New, hc] at h
      subst h
      refine ⟨rfl, rfl, by simp, ?_⟩
      intro b hb
      exact List.eq_of_mem_replicate hb
  · intro d k j
    by_cases h : d < 0 <;> simp [TimeWheel.AddJob, h]

/-- Witness for `timewheel_new_addjob_guard` at `interval ∈ {-1, 1s}`,
`slotNum = 4`, `delay = -5`. -/
theorem timewheel_new_addjob_guard_witness :
    TimeWheel.New (-1) 4 = none ∧
    TimeWheel.New 1000000000 4 = some twC10 ∧
    twC10.currentPos = 0 ∧ twC10.slots.length = 4 ∧
    TimeWheel.AddJob (-5) "k" 0 = none := by
  refine ⟨?_, by decide, ?_, ?_, ?_⟩
  · exact (timewheel_new_addjob_guard (-1) 4).1.mpr (Or.inl (by decide))
  · exact ((timewheel_new_addjob_guard 1000000000 4).2.1 twC10 (by decide)).1
  · exact ((timewheel_new_addjob_guard 1000000000 4).2.1 twC10 (by decide)).2.2.1
  · exact ((timewheel_new_addjob_guard 1000000000 4).2.2 (-5) "k" 0).mpr (by decide)

/-- C5 counterexample: a wheel with a positive sub-second interval is accepted by
`New`, but `getPositionAndCircle` (and hence `addTask`) faults on it with a
division by zero, for any delay — the claim promised success for intervals
shorter than one second. -/
theorem timewheel_subsecond_interval_faults :
    TimeWheel.New 500000000 4 = some twC5 ∧
    twC5.getPositionAndCircle 1000000000 = none ∧
    twC5.addTask ⟨1000000000, "k", 0⟩ = none := by decide

/-- Helper: whenever `getPositionAndCircle` succeeds with a position inside the
wheel, `addTask` succeeds and the new task (with the computed `circle` and a fresh
element id) ends up at the back of bucket `pos`, surviving the removal of a
previously registered task under the same key. -/
theorem addTask_places_task (tw : TimeWheel) (req : TWTaskReq) (pos circ : Nat)
    (hwf : tw.WF)
    (hgp : tw.getPositionAndCircle req.delay = some (pos, circ))
    (hposlt : pos < tw.slotNum) :
    ∃ tw' bucket, tw.addTask req = some tw' ∧ tw'.slots[pos]? = some bucket ∧
      (⟨req.key, circ, req.job, tw.nextId⟩ : TWTask) ∈ bucket := by
  have hpos' : pos < tw.slots.length := by rw [hwf.1]; exact hposlt
  obtain ⟨l, hl⟩ : ∃ l, tw.slots[pos]? = some l := ⟨_, List.getElem?_eq_getElem hpos'⟩
  have hs1pos : (tw.slots.set pos (l ++ [⟨req.key, circ, req.job, tw.nextId⟩]))[pos]?
      = some (l ++ [⟨req.key, circ, req.job, tw.nextId⟩]) :=
    List.getElem?_set_eq_of_lt _ hpos'
  by_cases hk : req.key ≠ "" ∧ (twLookup tw.timer req.key).isSome
  · obtain ⟨loc0, hloc0⟩ := Option.isSome_iff_exists.mp hk.2
    have hloc0' : (tw.timer.find? (fun e => e.1 = req.key)).map (fun e => e.2)
        = some loc0 := by
      simp only [twLookup] at hloc0
      exact hloc0
    obtain ⟨e, hfind, he2⟩ := Option.map_eq_some'.mp hloc0'
    have hment : e ∈ tw.timer := List.mem_of_find?_eq_some hfind
    obtain ⟨hslot0, hid0⟩ := hwf.2 e hment
    rw [he2] at hslot0 hid0
    have hslot0' : loc0.slot <
        (tw.slots.set pos (l ++ [⟨req.key, circ, req.job, tw.nextId⟩])).length := by
      rw [List.length_set]; exact hslot0
    obtain ⟨l2, hl2⟩ : ∃ l2,
        (tw.slots.set pos (l ++ [⟨req.key, circ, req.job, tw.nextId⟩]))[loc0.slot]?
          = some l2 := ⟨_, List.getElem?_eq_getElem hslot0'⟩
    have hadd : tw.addTask req = some
        { tw with
          slots := (tw.slots.set pos (l ++ [⟨req.key, circ, req.job, tw.nextId⟩])).set
            loc0.slot (l2.filter (fun x => x.id ≠ loc0.id))
          timer := twInsert (twErase tw.timer req.key) req.key ⟨pos, tw.nextId⟩
          nextId := tw.nextId + 1 } := by
      simp only [TimeWheel.addTask, hgp, hl]
      rw [if_pos hk]
      simp only [TimeWheel.removeTask, hloc0, hl2]
      rfl
    by_cases hsl : loc0.slot = pos
    · subst hsl
      have hl2' : l2 = l ++ [⟨req.key, circ, req.job, tw.nextId⟩] := by
        rw [hs1pos] at hl2
        exact (Option.some.inj hl2).symm
      refine ⟨_, l2.filter (fun x => x.id ≠ loc0.id), hadd,
        List.getElem?_set_eq_of_lt _ hslot0', ?_⟩
      refine List.mem_filter.mpr ⟨by simp [hl2'], ?_⟩
      simp only [ne_eq, decide_not]
      simp [Nat.ne_of_gt hid0]
    · refine ⟨_, l ++ [⟨req.key, circ, req.job, tw.nextId⟩], hadd, ?_, by simp⟩
      rw [List.getElem?_set_ne hsl]
      exact hs1pos
  · have hadd : tw.addTask req = some
        { tw with
          slots := tw.slots.set pos (l ++ [⟨req.key, circ, req.job, tw.nextId⟩])
          timer := twInsert tw.timer req.key ⟨pos, tw.nextId⟩
          nextId := tw.nextId + 1 } := by
      simp only [TimeWheel.addTask, hgp, hl]
      rw [if_neg hk]
      rfl
    exact ⟨_, _, hadd, hs1pos, by simp⟩

/-- C5 amended: for wheels whose interval is at least one second (and positive
`slotNum`), adding a job with delay `d` computes, in whole truncated seconds
`ds = ⌊d⌋ₛ` and `is = ⌊interval⌋ₛ`, the bucket `pos = (cursor + ds/is) mod slotNum`
and counter `circle = (ds/is)/slotNum`, and the task lands in bucket `pos` with
that counter. -/
theorem timewheel_position_amended :
    ∀ (tw : TimeWheel) (d : Nat) (key : String) (job : Nat),
      1000000000 ≤ tw.interval → 0 < tw.slotNum → tw.WF →
      ∃ tw' bucket,
        tw.getPositionAndCircle d =
          some ((tw.currentPos + d / 1000000000 / (tw.interval / 1000000000)) % tw.slotNum,
                d / 1000000000 / (tw.interval / 1000000000) / tw.slotNum) ∧
        tw.addTask ⟨d, key, job⟩ = some tw' ∧
        tw'.slots[(tw.currentPos + d / 1000000000 / (tw.interval / 1000000000)) % tw.slotNum]?
          = some bucket ∧
        (⟨key, d / 1000000000 / (tw.interval / 1000000000) / tw.slotNum, job, tw.nextId⟩ :
          TWTask) ∈ bucket := by
  intro tw d key job hint hslot hwf
  have his : tw.interval / 1000000000 ≠ 0 := by
    have : 1 ≤ tw.interval / 1000000000 := (Nat.one_le_div_iff (by norm_num)).mpr hint
    omega
  have hsn : tw.slotNum ≠ 0 := hslot.ne'
  have hgp : tw.getPositionAndCircle d =
      some ((tw.currentPos + d / 1000000000 / (tw.interval / 1000000000)) % tw.slotNum,
            d / 1000000000 / (tw.interval / 1000000000) / tw.slotNum) := by
    unfold TimeWheel.getPositionAndCircle
    rw [if_neg (by push_neg; exact ⟨his, hsn⟩)]
  obtain ⟨tw', bucket, hadd, hb, hmem⟩ :=
    addTask_places_task tw ⟨d, key, job⟩ _ _ hwf hgp (Nat.mod_lt _ hslot)
  exact ⟨tw', bucket, hgp, hadd, hb, hmem⟩

/-- Witness for `timewheel_position_amended`: the 1-second 4-slot wheel with a 5 s
delay computes bucket `1` and circle `1`, and `addTask` succeeds. -/
theorem timewheel_position_amended_witness :
    twC10.getPositionAndCircle 5000000000 = some (1, 1) ∧
    (twC10.addTask ⟨5000000000, "k", 0⟩).isSome = true := by
  obtain ⟨tw', bucket, h1, h2, h3, h4⟩ :=
    timewheel_position_amended twC10 5000000000 "k" 0 (by decide) (by decide)
      (by constructor <;> decide)
  exact ⟨h1, by rw [h2]; rfl⟩

/-- C2 (code bug): on the key `"}a{b}"` — where the first `'}'` precedes the first
`'{'` — `getPartitionKey` slices `key[3:0]` and panics, so `PickNode` faults
instead of returning a node. -/
theorem partition_key_brace_inversion_panics :
    getPartitionKey [125, 97, 123, 98, 125] = none ∧
    ringC6.PickNode [125, 97, 123, 98, 125] = none := by decide

/-- `indexOfByte` skips over a block that does not contain the byte. -/
theorem indexOfByte_append_of_not_mem (b : Nat) (l1 l2 : List Nat) (h : b ∉ l1) :
    indexOfByte b (l1 ++ l2) = (indexOfByte b l2).map (· + l1.length) := by
  induction l1 with
  | nil =>
    cases h2 : indexOfByte b l2 <;> simp [h2]
  | cons c rest ih =>
    have hc : ¬(c = b) := fun hcb => h (hcb ▸ List.mem_cons_self c rest)
    have h' : b ∉ rest := fun hb => h (List.mem_cons_of_mem c hb)
    calc indexOfByte b ((c :: rest) ++ l2)
        = (indexOfByte b (rest ++ l2)).map (· + 1) := by
          simp [indexOfByte, hc]
      _ = ((indexOfByte b l2).map (· + rest.length)).map (· + 1) := by rw [ih h']
      _ = (indexOfByte b l2).map (· + (c :: rest).length) := by
          cases h2 : indexOfByte b l2 <;> simp [h2, Nat.add_assoc]

/-- A found index is inside the list. -/
theorem indexOfByte_some_lt {b : Nat} :
    ∀ {l : List Nat} {i : Nat}, indexOfByte b l = some i → i < l.length := by
  intro l
  induction l with
  | nil => intro i h; simp [indexOfByte] at h
  | cons c rest ih =>
    intro i h
    by_cases hc : c = b
    · simp [indexOfByte, hc] at h
      simp only [List.length_cons]
      omega
    · simp only [indexOfByte, hc, if_false] at h
      obtain ⟨j, hj, rfl⟩ := Option.map_eq_some'.mp h
      have := ih hj
      simp only [List.length_cons]
      omega

/-- Everything before the first occurrence differs from the byte. -/
theorem indexOfByte_take_ne {b : Nat} :
    ∀ {l : List Nat} {i : Nat}, indexOfByte b l = some i → ∀ x ∈ l.take i, x ≠ b := by
  intro l
  induction l with
  | nil => intro i h; simp [indexOfByte] at h
  | cons c rest ih =>
    intro i h x hx
    by_cases hc : c = b
    · simp [indexOfByte, hc] at h
      subst h
      simp at hx
    · simp only [indexOfByte, hc, if_false] at h
      obtain ⟨j, hj, rfl⟩ := Option.map_eq_some'.mp h
      rcases List.mem_cons.mp (by simpa using hx) with rfl | hxr
      · exact hc
      · exact ih hj x hxr

/-- When a key has a `'{'` at `beg` and its first `'}'` at `endIdx > beg + 1`,
`getPartitionKey` returns the slice strictly between them. -/
theorem getPartitionKey_eq_of_indices (key : List Nat) (beg endIdx : Nat)
    (h1 : indexOfByte 123 key = some beg) (h2 : indexOfByte 125 key = some endIdx)
    (hlt : beg + 1 < endIdx) :
    getPartitionKey key = some ((key.drop (beg + 1)).take (endIdx - (beg + 1))) := by
  unfold getPartitionKey
  rw [h1, h2]
  show (if endIdx = beg + 1 then some key else if endIdx < beg + 1 then none
    else some ((key.drop (beg + 1)).take (endIdx - (beg + 1)))) = _
  rw [if_neg (by omega), if_neg (by omega)]

/-- C6 amended: for any ring state, any key with hash tag `t`, and any prefix free
of `'{'` and `'}'`, `PickNode(key) = PickNode(prefix ++ "{" ++ t ++ "}" ++ suffix)`
(the suffix is unconstrained).  The brace-free condition on the prefix is necessary:
see `picknode_hashtag_prefix_counterexample`. -/
theorem picknode_hashtag_amended :
    ∀ (m : CHMap) (key t pfx sfx : List Nat),
      hashTagOf key = some t →
      (∀ b ∈ pfx, b ≠ 123 ∧ b ≠ 125) →
      m.PickNode key = m.PickNode (pfx ++ 123 :: (t ++ 125 :: sfx)) := by
  intro m key t pfx sfx hht hpfx
  unfold hashTagOf at hht
  cases h1 : indexOfByte 123 key with
  | none => rw [h1] at hht; simp at hht
  | some beg =>
  cases h2 : indexOfByte 125 key with
  | none => rw [h1, h2] at hht; simp at hht
  | some endIdx =>
  rw [h1, h2] at hht
  replace hht : (if beg + 1 < endIdx then
      some ((key.drop (beg + 1)).take (endIdx - (beg + 1))) else none) = some t := hht
  by_cases hlt : beg + 1 < endIdx
  · rw [if_pos hlt] at hht
    replace hht := Option.some.inj hht
    -- the tag on the original key
    have hgk : getPartitionKey key = some t := by
      rw [getPartitionKey_eq_of_indices key beg endIdx h1 h2 hlt, hht]
    have hend : endIdx < key.length := indexOfByte_some_lt h2
    have htlen : t.length = endIdx - (beg + 1) := by
      rw [← hht]
      simp only [List.length_take, List.length_drop]
      omega
    have htpos : 0 < t.length := by omega
    have ht125 : ∀ x ∈ t, x ≠ 125 := by
      intro x hx
      rw [← hht] at hx
      have hx' : x ∈ (key.take (beg + 1 + (endIdx - (beg + 1)))).drop (beg + 1) := by
        rw [← List.take_drop]
        exact hx
      have hx'' : x ∈ key.take endIdx := by
        rw [show beg + 1 + (endIdx - (beg + 1)) = endIdx from by omega] at hx'
        exact List.mem_of_mem_drop hx'
      exact indexOfByte_take_ne h2 x hx''
    -- indices inside the rebuilt key
    have h123 : 123 ∉ pfx := fun hm => (hpfx 123 hm).1 rfl
    have h125a : 125 ∉ pfx := fun hm => (hpfx 125 hm).2 rfl
    have h1' : indexOfByte 123 (pfx ++ 123 :: (t ++ 125 :: sfx)) = some pfx.length := by
      rw [indexOfByte_append_of_not_mem 123 pfx _ h123]
      simp [indexOfByte]
    have hassoc : pfx ++ 123 :: (t ++ 125 :: sfx) = (pfx ++ 123 :: t) ++ 125 :: sfx := by
      simp
    have h125b : 125 ∉ pfx ++ 123 :: t := by
      intro hm
      rcases List.mem_append.mp hm with hm | hm
      · exact h125a hm
      · rcases List.mem_cons.mp hm with h | h
        · exact absurd h.symm (by decide)
        · exact ht125 125 h rfl
    have h2' : indexOfByte 125 (pfx ++ 123 :: (t ++ 125 :: sfx))
        = some (pfx.length + 1 + t.length) := by
      rw [hassoc, indexOfByte_append_of_not_mem 125 _ _ h125b]
      simp [indexOfByte, List.length_append]
      omega
    -- the tag on the rebuilt key
    have hgk' : getPartitionKey (pfx ++ 123 :: (t ++ 125 :: sfx)) = some t := by
      rw [getPartitionKey_eq_of_indices _ pfx.length (pfx.length + 1 + t.length) h1' h2'
        (by omega)]
      congr 1
      have hdrop : (pfx ++ 123 :: (t ++ 125 :: sfx)).drop (pfx.length + 1)
          = t ++ 125 :: sfx := by
        have : pfx ++ 123 :: (t ++ 125 :: sfx) = (pfx ++ [123]) ++ (t ++ 125 :: sfx) := by
          simp
        rw [this, show pfx.length + 1 = (pfx ++ [123]).length from by simp]
        exact List.drop_left _ _
      rw [hdrop, show pfx.length + 1 + t.length - (pfx.length + 1) = t.length from by omega]
      exact List.take_left t _
    unfold CHMap.PickNode
    rw [hgk, hgk']
  · rw [if_neg hlt] at hht
    simp at hht

/-- Witness for `picknode_hashtag_amended`: on the one-node ring, the key `"{b}"`
(tag `"b"`) picks the same node as `"a{b}c"`. -/
theorem picknode_hashtag_amended_witness :
    hashTagOf [123, 98, 125] = some [98] ∧
    ringC6.PickNode [123, 98, 125] = ringC6.PickNode [97, 123, 98, 125, 99] := by
  constructor
  · decide
  · exact picknode_hashtag_amended ringC6 [123, 98, 125] [98] [97] [99]
      (by decide) (by decide)

/-- C6 counterexample: with the prefix `"}"` the rebuilt key `"}{b}"` makes
`PickNode` fault (the partition-key slice panics), while `PickNode` on the
original key `"{b}"` (hash tag `"b"`) returns the node — so the claimed equality
fails for arbitrary prefixes. -/
theorem picknode_hashtag_prefix_counterexample :
    hashTagOf [123, 98, 125] = some [98] ∧
    ringC6.PickNode [123, 98, 125] = some [65] ∧
    ringC6.PickNode ([125] ++ 123 :: ([98] ++ 125 :: [])) = none := by decide

/-- C1 amended: with a non-empty `requirepass` and a connection that has not
supplied it, every command whose lower-cased name is neither `auth` nor `info`
receives exactly the `NOAUTH Authentication required` error, and the keyspace is
returned unchanged. -/
theorem cluster_auth_gate_amended :
    ∀ (DB : Type) (deps : ClusterDeps DB) (rp : String) (c : Conn) (db : DB)
      (c0 : String) (rest : List String),
      rp ≠ "" → c.password ≠ rp →
      goToLower c0 ≠ "auth" → goToLower c0 ≠ "info" →
      clusterExec deps rp c (c0 :: rest) db =
        (db, GReply.errReply "NOAUTH Authentication required") := by
  intro DB deps rp c db c0 rest hrp hpw hauth hinfo
  have ha : isAuthenticated rp c = false := by
    unfold isAuthenticated
    rw [if_neg hrp]
    simp [hpw]
  have hbody : clusterExecBody deps rp c (c0 :: rest) db
      = (db, Except.ok (GReply.errReply "NOAUTH Authentication required")) := by
    simp [clusterExecBody, ha, hauth, hinfo]
  simp [clusterExec, hbody]

/-- Witness for `cluster_auth_gate_amended`: an unauthenticated `PING` under
`requirepass = "foo"` gets `NOAUTH` and leaves the keyspace (`db = 0`) unchanged. -/
theorem cluster_auth_gate_amended_witness :
    clusterExec depsC1 "foo" connAnon ["ping"] (0 : Nat)
      = (0, GReply.errReply "NOAUTH Authentication required") :=
  cluster_auth_gate_amended Nat depsC1 "foo" connAnon 0 "ping" []
    (by decide) (by decide) (by decide) (by decide)

/-- C1 counterexample: `Exec` tests for `info` *before* the authentication gate,
so an unauthenticated `INFO` (with the standalone-server db, as built by
`MakeCluster`) is answered by the `Info` handler instead of
`NOAUTH Authentication required`. -/
theorem cluster_info_bypasses_auth :
    clusterExec depsC1 "foo" connAnon ["INFO"] (0 : Nat) = (0, GReply.val 7) ∧
    (GReply.val 7 : GReply) ≠ GReply.errReply "NOAUTH Authentication required" := by
  exact ⟨by decide, by decide⟩

/-- C8: for every non-empty command line, `Exec` yields exactly the body's reply
when the body finishes normally, and the `UnknownErr` reply when the body raises
a fault — the deferred `recover` never lets a crash propagate. -/
theorem cluster_exec_recovers :
    ∀ (DB : Type) (deps : ClusterDeps DB) (rp : String) (c : Conn)
      (cmdLine : List String) (db : DB),
      cmdLine ≠ [] →
      ((clusterExecBody deps rp c cmdLine db).2 = Except.error () →
        (clusterExec deps rp c cmdLine db).2 = GReply.unknownErr) ∧
      (∀ r, (clusterExecBody deps rp c cmdLine db).2 = Except.ok r →
        (clusterExec deps rp c cmdLine db).2 = r) := by
  intro DB deps rp c cmd db _
  refine ⟨?_, ?_⟩
  · intro herr
    rcases hb : clusterExecBody deps rp c cmd db with ⟨db', e⟩
    rw [hb] at herr
    cases e with
    | error u => simp [clusterExec, hb]
    | ok r => simp at herr
  · intro r hok
    rcases hb : clusterExecBody deps rp c cmd db with ⟨db', e⟩
    rw [hb] at hok
    cases e with
    | error u => simp at hok
    | ok r' =>
      simp only [] at hok
      simp [clusterExec, hb, Except.ok.inj hok]

/-- Witness for `cluster_exec_recovers`: a registered handler that panics is
answered with `UnknownErr`. -/
theorem cluster_exec_recovers_witness :
    (clusterExecBody depsC8 "" connAnon ["boom"] (0 : Nat)).2 = Except.error () ∧
    (clusterExec depsC8 "" connAnon ["boom"] (0 : Nat)).2 = GReply.unknownErr := by
  refine ⟨by rfl, ?_⟩
  exact (cluster_exec_recovers Nat depsC8 "" connAnon ["boom"] 0 (by decide)).1 (by rfl)

namespace QuickList

variable {α : Type}

theorem pagesLen_append (l1 l2 : List (Page α)) :
    pagesLen (l1 ++ l2) = pagesLen l1 + pagesLen l2 := by
  simp [pagesLen]

theorem pagesLen_cons (p : Page α) (l : List (Page α)) :
    pagesLen (p :: l) = p.elems.length + pagesLen l := by
  simp [pagesLen]

theorem pagesLen_nil : pagesLen ([] : List (Page α)) = 0 := rfl

/-- A successful index lookup splits the page list around the found page. -/
theorem getElem?_decomp {l : List (Page α)} {i : Nat} {p : Page α}
    (h : l[i]? = some p) :
    l = l.take i ++ p :: l.drop (i + 1) ∧ i < l.length := by
  have hi : i < l.length := by
    by_contra hge
    rw [List.getElem?_eq_none (by omega)] at h
    cases h
  refine ⟨?_, hi⟩
  conv_lhs => rw [← List.take_append_drop i l]
  congr 1
  rw [List.drop_eq_getElem_cons hi]
  congr 1
  have := List.getElem?_eq_getElem hi
  rw [h] at this
  exact (Option.some.inj this).symm

theorem pagesLen_set {l : List (Page α)} {i : Nat} {p : Page α} (p' : Page α)
    (hp : l[i]? = some p) :
    pagesLen (l.set i p') + p.elems.length = pagesLen l + p'.elems.length := by
  obtain ⟨hdecomp, hi⟩ := getElem?_decomp hp
  rw [List.set_eq_take_append_cons_drop, if_pos hi]
  conv_rhs => rw [hdecomp]
  rw [pagesLen_append, pagesLen_append, pagesLen_cons, pagesLen_cons]
  omega

theorem pagesLen_eraseIdx {l : List (Page α)} {i : Nat} {p : Page α}
    (hp : l[i]? = some p) :
    pagesLen (l.eraseIdx i) + p.elems.length = pagesLen l := by
  obtain ⟨hdecomp, _⟩ := getElem?_decomp hp
  rw [List.eraseIdx_eq_take_drop_succ]
  conv_rhs => rw [hdecomp]
  rw [pagesLen_append, pagesLen_append, pagesLen_cons]
  omega

theorem pagesLen_pos_of_getElem? {l : List (Page α)} {i : Nat} {p : Page α}
    (hp : l[i]? = some p) : p.elems.length ≤ pagesLen l := by
  obtain ⟨hdecomp, _⟩ := getElem?_decomp hp
  conv_rhs => rw [hdecomp]
  rw [pagesLen_append, pagesLen_cons]
  omega

/-- `SizeInv` holds for the empty list. -/
theorem sizeInv_new : (NewQuickList α).SizeInv := by
  constructor
  · rfl
  · intro p hp
    cases hp

/-- `Add` preserves `SizeInv`. -/
theorem sizeInv_add {ql : QuickList α} (hW : ql.SizeInv) (v : α) :
    (ql.Add v).SizeInv := by
  obtain ⟨hsum, hne⟩ := hW
  unfold Add
  cases hb : ql.data.getLast? with
  | none =>
    have hdata : ql.data = [] := by
      cases hd : ql.data with
      | nil => rfl
      | cons x xs => rw [hd] at hb; simp at hb
    rw [hdata] at hsum
    constructor
    · simp [pagesLen, hsum, pagesLen_nil] at hsum ⊢
    · intro p hp
      rcases List.mem_singleton.mp hp with rfl
      simp
  | some back =>
    have hdecomp : ql.data.dropLast ++ [back] = ql.data :=
      List.dropLast_append_getLast? back hb
    show (if back.elems.length = back.cap then
        ({ data := ql.data ++ [⟨[v], pageSize⟩], size := ql.size + 1 } : QuickList α)
      else
        { data := ql.data.dropLast ++ [⟨back.elems ++ [v], back.cap⟩],
          size := ql.size + 1 }).SizeInv
    by_cases hfull : back.elems.length = back.cap
    · rw [if_pos hfull]
      constructor
      · show ql.size + 1 = pagesLen (ql.data ++ [⟨[v], pageSize⟩])
        rw [pagesLen_append, ← hsum]
        simp [pagesLen]
      · intro p hp
        rcases List.mem_append.mp hp with h | h
        · exact hne p h
        · rcases List.mem_singleton.mp h with rfl
          simp
    · rw [if_neg hfull]
      constructor
      · show ql.size + 1 = pagesLen (ql.data.dropLast ++ [⟨back.elems ++ [v], back.cap⟩])
        rw [pagesLen_append]
        have : pagesLen ql.data.dropLast + pagesLen [back] = pagesLen ql.data := by
          rw [← pagesLen_append, hdecomp]
        simp only [pagesLen_cons, pagesLen_nil] at this ⊢
        simp only [List.length_append, List.length_singleton]
        omega
      · intro p hp
        rcases List.mem_append.mp hp with h | h
        · exact hne p (List.dropLast_subset _ h)
        · rcases List.mem_singleton.mp h with rfl
          simp

theorem lt_length_of_getElem?_some {β : Type} {l : List β} {i : Nat} {a : β}
    (h : l[i]? = some a) : i < l.length := by
  by_contra hge
  rw [List.getElem?_eq_none (by omega)] at h
  cases h

/-- `iterator.remove` preserves `SizeInv` whenever it does not panic. -/
theorem sizeInv_iterRemove {ql : QuickList α} {it : iterator} {v : α}
    {ql' : QuickList α} {it' : iterator}
    (hW : ql.SizeInv) (h : ql.iterRemove it = some (v, ql', it')) : ql'.SizeInv := by
  obtain ⟨hsum, hne⟩ := hW
  unfold iterRemove at h
  cases hn : it.node with
  | none =>
    rw [hn] at h
    cases h
  | some i =>
  simp only [hn] at h
  cases hp : ql.data[i]? with
  | none =>
    rw [hp] at h
    cases h
  | some p =>
  simp only [hp] at h
  by_cases hoff : it.offset < 0
  · rw [if_pos hoff] at h
    cases h
  rw [if_neg hoff] at h
  cases hval : p.elems[it.offset.toNat]? with
  | none =>
    rw [hval] at h
    cases h
  | some val =>
  simp only [hval] at h
  have ho : it.offset.toNat < p.elems.length := lt_length_of_getElem?_some hval
  have hplen : (p.elems.take it.offset.toNat ++
      p.elems.drop (it.offset.toNat + 1)).length = p.elems.length - 1 := by
    simp only [List.length_append, List.length_take, List.length_drop]
    omega
  have hple : p.elems.length ≤ pagesLen ql.data := pagesLen_pos_of_getElem? hp
  by_cases hpos : 0 < (p.elems.take it.offset.toNat ++
      p.elems.drop (it.offset.toNat + 1)).length
  · rw [if_pos hpos] at h
    -- the page stays; ql' has the page replaced and size decremented
    have hA : SizeInv (⟨ql.data.set i ⟨p.elems.take it.offset.toNat ++
        p.elems.drop (it.offset.toNat + 1), p.cap⟩, ql.size - 1⟩ : QuickList α) := by
      constructor
      · show ql.size - 1 = pagesLen (ql.data.set i _)
        have := pagesLen_set (⟨p.elems.take it.offset.toNat ++
          p.elems.drop (it.offset.toNat + 1), p.cap⟩ : Page α) hp
        simp only at this
        omega
      · intro q hq
        rcases List.mem_or_eq_of_mem_set hq with hold | rfl
        · exact hne q hold
        · exact List.ne_nil_of_length_pos hpos
    split at h
    · split at h
      · simp only [Option.some.injEq, Prod.mk.injEq] at h
        obtain ⟨-, h2, -⟩ := h
        exact h2 ▸ hA
      · simp only [Option.some.injEq, Prod.mk.injEq] at h
        obtain ⟨-, h2, -⟩ := h
        exact h2 ▸ hA
    · simp only [Option.some.injEq, Prod.mk.injEq] at h
      obtain ⟨-, h2, -⟩ := h
      exact h2 ▸ hA
  · rw [if_neg hpos] at h
    -- the page became empty and is unlinked
    have hB : SizeInv (⟨ql.data.eraseIdx i, ql.size - 1⟩ : QuickList α) := by
      constructor
      · show ql.size - 1 = pagesLen (ql.data.eraseIdx i)
        have := pagesLen_eraseIdx hp
        omega
      · intro q hq
        exact hne q (List.mem_of_mem_eraseIdx hq)
    split at h
    · simp only [Option.some.injEq, Prod.mk.injEq] at h
      obtain ⟨-, h2, -⟩ := h
      exact h2 ▸ hB
    · simp only [Option.some.injEq, Prod.mk.injEq] at h
      obtain ⟨-, h2, -⟩ := h
      exact h2 ▸ hB

/-- `iterator.set` preserves `SizeInv`. -/
theorem sizeInv_iterSet {ql : QuickList α} {it : iterator} {v : α}
    {ql' : QuickList α}
    (hW : ql.SizeInv) (h : ql.iterSet it v = some ql') : ql'.SizeInv := by
  obtain ⟨hsum, hne⟩ := hW
  unfold iterSet at h
  cases hn : it.node with
  | none =>
    rw [hn] at h
    cases h
  | some i =>
  simp only [hn] at h
  cases hp : ql.data[i]? with
  | none =>
    rw [hp] at h
    cases h
  | some p =>
  simp only [hp] at h
  by_cases hoff : it.offset < 0 ∨ (p.elems.length : Int) ≤ it.offset
  · rw [if_pos hoff] at h
    cases h
  rw [if_neg hoff] at h
  simp only [Option.some.injEq] at h
  subst h
  constructor
  · show ql.size = pagesLen (ql.data.set i _)
    have := pagesLen_set (⟨p.elems.set it.offset.toNat v, p.cap⟩ : Page α) hp
    simp only [List.length_set] at this
    omega
  · intro q hq
    rcases List.mem_or_eq_of_mem_set hq with hold | rfl
    · exact hne q hold
    · have : p.elems ≠ [] := hne p (List.getElem?_mem hp)
      simp only [ne_eq]
      intro hcon
      have := congrArg List.length hcon
      simp only [List.length_set] at this
      exact absurd (List.length_eq_zero.mp this) ‹p.elems ≠ []›

/-- `Set` preserves `SizeInv`. -/
theorem sizeInv_set {ql : QuickList α} {index : Nat} {v : α} {ql' : QuickList α}
    (hW : ql.SizeInv) (h : ql.Set index v = some ql') : ql'.SizeInv := by
  unfold Set at h
  cases hf : ql.find index with
  | none =>
    rw [hf] at h
    cases h
  | some io =>
  rcases io with ⟨i, o⟩
  simp only [hf] at h
  exact sizeInv_iterSet hW h

/-- `Remove` preserves `SizeInv`. -/
theorem sizeInv_remove {ql : QuickList α} {index : Nat} {v : α} {ql' : QuickList α}
    (hW : ql.SizeInv) (h : ql.Remove index = some (v, ql')) : ql'.SizeInv := by
  unfold Remove at h
  cases hf : ql.find index with
  | none =>
    rw [hf] at h
    cases h
  | some io =>
  rcases io with ⟨i, o⟩
  simp only [hf] at h
  cases hx : ql.iterRemove { node := some i, offset := (o : Int) } with
  | none =>
    rw [hx] at h
    cases h
  | some r =>
  rcases r with ⟨val, qlx, itx⟩
  simp only [hx, Option.some.injEq, Prod.mk.injEq] at h
  obtain ⟨-, h2⟩ := h
  exact h2 ▸ sizeInv_iterRemove hW hx

/-- `RemoveLast` preserves `SizeInv`. -/
theorem sizeInv_removeLast {ql : QuickList α} {v : Option α} {ql' : QuickList α}
    (hW : ql.SizeInv) (h : ql.RemoveLast = some (v, ql')) : ql'.SizeInv := by
  obtain ⟨hsum, hne⟩ := hW
  unfold RemoveLast at h
  split at h
  · simp only [Option.some.injEq, Prod.mk.injEq] at h
    obtain ⟨-, h2⟩ := h
    exact h2 ▸ ⟨hsum, hne⟩
  next hlen =>
  split at h
  · cases h
  next lastPage hb =>
  split at h
  · cases h
  next val hval =>
  have hdecomp : ql.data.dropLast ++ [lastPage] = ql.data :=
    List.dropLast_append_getLast? lastPage hb
  have hsplit : pagesLen ql.data.dropLast + lastPage.elems.length = pagesLen ql.data := by
    conv_rhs => rw [← hdecomp]
    rw [pagesLen_append, pagesLen_cons, pagesLen_nil]
    omega
  have hlast1 : 1 ≤ lastPage.elems.length := by
    have : lastPage.elems ≠ [] := by
      intro hcon
      rw [hcon] at hval
      simp at hval
    have := List.length_pos.mpr this
    omega
  split at h
  next h1 =>
    simp only [Option.some.injEq, Prod.mk.injEq] at h
    obtain ⟨-, h2⟩ := h
    subst h2
    constructor
    · show ql.size - 1 = pagesLen ql.data.dropLast
      omega
    · intro q hq
      exact hne q (List.dropLast_subset _ hq)
  next h1 =>
    simp only [Option.some.injEq, Prod.mk.injEq] at h
    obtain ⟨-, h2⟩ := h
    subst h2
    constructor
    · show ql.size - 1 = pagesLen (ql.data.dropLast ++ [⟨lastPage.elems.dropLast, lastPage.cap⟩])
      rw [pagesLen_append, pagesLen_cons, pagesLen_nil]
      simp only [List.length_dropLast]
      omega
    · intro q hq
      rcases List.mem_append.mp hq with hq | hq
      · exact hne q (List.dropLast_subset _ hq)
      · rcases List.mem_singleton.mp hq with rfl
        simp only [ne_eq]
        intro hcon
        have := congrArg List.length hcon
        simp only [List.length_dropLast, List.length_nil] at this
        omega

theorem pagesLen_take_drop (l : List (Page α)) (n : Nat) :
    pagesLen (l.take n) + pagesLen (l.drop n) = pagesLen l := by
  conv_rhs => rw [← List.take_append_drop n l]
  rw [pagesLen_append]

theorem pagesLen_take_le (l : List (Page α)) (n : Nat) :
    pagesLen (l.take n) ≤ pagesLen l := by
  have := pagesLen_take_drop l n
  omega

theorem pagesLen_reverse (l : List (Page α)) : pagesLen l.reverse = pagesLen l := by
  simp [pagesLen, List.map_reverse, List.sum_reverse]

theorem pagesLen_insertAt (q : Page α) (l : List (Page α)) (n : Nat) :
    pagesLen (insertAt n q l) = q.elems.length + pagesLen l := by
  unfold insertAt
  rw [pagesLen_append, pagesLen_cons]
  have := pagesLen_take_drop l n
  omega

theorem mem_insertAt {β : Type} {q x : β} {l : List β} {n : Nat}
    (h : q ∈ insertAt n x l) : q = x ∨ q ∈ l := by
  unfold insertAt at h
  rcases List.mem_append.mp h with h | h
  · exact Or.inr (List.take_subset n l h)
  · rcases List.mem_cons.mp h with h | h
    · exact Or.inl h
    · exact Or.inr (List.drop_subset _ l h)

theorem insertAt_length {β : Type} {l : List β} {n : Nat} (x : β) (h : n ≤ l.length) :
    (insertAt n x l).length = l.length + 1 := by
  unfold insertAt
  simp only [List.length_append, List.length_cons, List.length_take, List.length_drop]
  omega

theorem insertAt_ne_nil {β : Type} (n : Nat) (x : β) (l : List β) :
    insertAt n x l ≠ [] := by
  unfold insertAt
  simp

/-- What the forward search loop of `find` returns: a page index and an in-page
offset whose flattened position is exactly the searched index. -/
theorem findFrontAux_spec :
    ∀ (l : List (Page α)) (idx acc index : Nat), acc ≤ index →
      ∀ {i o : Nat}, findFrontAux l idx acc index = some (i, o) →
      ∃ k p, i = idx + k ∧ l[k]? = some p ∧ o < p.elems.length ∧
        acc + pagesLen (l.take k) + o = index := by
  intro l
  induction l with
  | nil =>
    intro idx acc index hacc i o h
    cases h
  | cons p rest ih =>
    intro idx acc index hacc i o h
    unfold findFrontAux at h
    by_cases hbr : acc + p.elems.length > index
    · rw [if_pos hbr] at h
      simp only [Option.some.injEq, Prod.mk.injEq] at h
      obtain ⟨h1, h2⟩ := h
      refine ⟨0, p, by omega, by simp, by omega, ?_⟩
      rw [List.take_zero, pagesLen_nil]
      omega
    · rw [if_neg hbr] at h
      obtain ⟨k, q, hik, hq, hoq, hsumk⟩ :=
        ih (idx + 1) (acc + p.elems.length) index (by omega) h
      refine ⟨k + 1, q, by omega, by simpa using hq, hoq, ?_⟩
      rw [List.take_succ_cons, pagesLen_cons]
      omega

/-- The forward search finds a page whenever the index is below the total length. -/
theorem findFrontAux_isSome :
    ∀ (l : List (Page α)) (idx acc index : Nat), acc ≤ index →
      index < acc + pagesLen l → (findFrontAux l idx acc index).isSome := by
  intro l
  induction l with
  | nil =>
    intro idx acc index h1 h2
    rw [pagesLen_nil] at h2
    omega
  | cons p rest ih =>
    intro idx acc index h1 h2
    unfold findFrontAux
    by_cases hbr : acc + p.elems.length > index
    · rw [if_pos hbr]
      rfl
    · rw [if_neg hbr]
      rw [pagesLen_cons] at h2
      exact ih (idx + 1) (acc + p.elems.length) index (by omega) (by omega)

/-- What the backward search loop of `find` returns, phrased over the original
page list `d`: the call consumes `(d.take (idx+1)).reverse` with `pageBeg = pb`. -/
theorem findBackAux_spec :
    ∀ (idx : Nat) (d : List (Page α)) (pb : Int) (index : Nat),
      idx < d.length → (index : Int) < pb →
      ∀ {i o : Nat},
        findBackAux ((d.take (idx + 1)).reverse) idx pb index = some (i, o) →
      ∃ p, d[i]? = some p ∧ o < p.elems.length ∧ i ≤ idx ∧
        pb - ((pagesLen (d.take (idx + 1)) : Int) - pagesLen (d.take i)) + o = index := by
  intro idx
  induction idx with
  | zero =>
    intro d pb index hlen hlt i o h
    obtain ⟨q, rest, rfl⟩ : ∃ q rest, d = q :: rest := by
      cases d with
      | nil => simp at hlen
      | cons q rest => exact ⟨q, rest, rfl⟩
    replace h : (if pb - q.elems.length ≤ (index : Int) then
        some (0, ((index : Int) - (pb - q.elems.length)).toNat)
      else findBackAux [] (0 - 1) (pb - q.elems.length) index) = some (i, o) := h
    by_cases hbr : pb - q.elems.length ≤ (index : Int)
    · rw [if_pos hbr] at h
      simp only [Option.some.injEq, Prod.mk.injEq] at h
      obtain ⟨h1, h2⟩ := h
      subst h1
      refine ⟨q, by simp, by omega, by omega, ?_⟩
      simp only [List.take_succ_cons, List.take_zero, pagesLen_cons, pagesLen_nil]
      omega
    · rw [if_neg hbr] at h
      cases h
  | succ j ih =>
    intro d pb index hlen hlt i o h
    have hj : j + 1 < d.length := hlen
    obtain ⟨q, hq⟩ : ∃ q, d[j + 1]? = some q :=
      ⟨_, List.getElem?_eq_getElem hj⟩
    have htake : d.take (j + 1 + 1) = d.take (j + 1) ++ [q] := by
      rw [List.take_succ, hq]
      rfl
    have hrev : (d.take (j + 1 + 1)).reverse = q :: (d.take (j + 1)).reverse := by
      rw [htake, List.reverse_append]
      rfl
    rw [hrev] at h
    replace h : (if pb - q.elems.length ≤ (index : Int) then
        some (j + 1, ((index : Int) - (pb - q.elems.length)).toNat)
      else findBackAux ((d.take (j + 1)).reverse) (j + 1 - 1) (pb - q.elems.length) index)
        = some (i, o) := h
    by_cases hbr : pb - q.elems.length ≤ (index : Int)
    · rw [if_pos hbr] at h
      simp only [Option.some.injEq, Prod.mk.injEq] at h
      obtain ⟨h1, h2⟩ := h
      subst h1
      have hsum : pagesLen (d.take (j + 1 + 1)) = pagesLen (d.take (j + 1)) + q.elems.length := by
        rw [htake, pagesLen_append, pagesLen_cons, pagesLen_nil]
        omega
      refine ⟨q, hq, by omega, by omega, ?_⟩
      rw [hsum]
      omega
    · rw [if_neg hbr] at h
      obtain ⟨p, hp, ho, hij, heq⟩ := ih d (pb - q.elems.length) index (by omega) (by omega) h
      have hsum : pagesLen (d.take (j + 1 + 1)) = pagesLen (d.take (j + 1)) + q.elems.length := by
        rw [htake, pagesLen_append, pagesLen_cons, pagesLen_nil]
        omega
      refine ⟨p, hp, ho, by omega, ?_⟩
      rw [hsum]
      omega

/-- The backward search finds a page whenever `pageBeg` exceeds the index by at
most the total length of the remaining pages. -/
theorem findBackAux_isSome :
    ∀ (rl : List (Page α)) (idx : Nat) (pb : Int) (index : Nat),
      (index : Int) < pb → pb ≤ index + pagesLen rl →
      (findBackAux rl idx pb index).isSome := by
  intro rl
  induction rl with
  | nil =>
    intro idx pb index h1 h2
    rw [pagesLen_nil] at h2
    omega
  | cons p rest ih =>
    intro idx pb index h1 h2
    show (if pb - p.elems.length ≤ (index : Int) then
        some (idx, ((index : Int) - (pb - p.elems.length)).toNat)
      else findBackAux rest (idx - 1) (pb - p.elems.length) index).isSome
    by_cases hbr : pb - p.elems.length ≤ (index : Int)
    · rw [if_pos hbr]
      rfl
    · rw [if_neg hbr]
      rw [pagesLen_cons] at h2
      exact ih (idx - 1) (pb - p.elems.length) index (by omega) (by push_cast at h2 ⊢; omega)

/-- A successful `find` always lands inside an existing page (no well-formedness
assumption needed). -/
theorem find_valid {ql : QuickList α} {index i o : Nat}
    (h : ql.find index = some (i, o)) :
    ∃ p, ql.data[i]? = some p ∧ o < p.elems.length := by
  unfold find at h
  by_cases hge : index ≥ ql.size
  · rw [if_pos hge] at h
    cases h
  rw [if_neg hge] at h
  by_cases hbr : index < ql.size / 2
  · rw [if_pos hbr] at h
    obtain ⟨k, p, hik, hp, ho, -⟩ := findFrontAux_spec ql.data 0 0 index (by omega) h
    exact ⟨p, by rw [hik]; simpa using hp, ho⟩
  · rw [if_neg hbr] at h
    have hne : ql.data ≠ [] := by
      intro hcon
      rw [hcon] at h
      cases h
    have hlen : 0 < ql.data.length := List.length_pos.mpr hne
    have htake : ql.data.take (ql.data.length - 1 + 1) = ql.data := by
      rw [show ql.data.length - 1 + 1 = ql.data.length from by omega]
      exact List.take_length ..
    obtain ⟨p, hp, ho, -, -⟩ := findBackAux_spec (ql.data.length - 1) ql.data
      (ql.size : Int) index (by omega) (by exact_mod_cast (by omega : index < ql.size))
      (by rw [htake]; exact h)
    exact ⟨p, hp, ho⟩

/-- Under `SizeInv`, `find` succeeds on every in-range index and returns the
canonical page/offset decomposition of that index. -/
theorem find_spec {ql : QuickList α} (hW : ql.SizeInv) {index : Nat}
    (hidx : index < ql.size) :
    ∃ i o p, ql.find index = some (i, o) ∧ ql.data[i]? = some p ∧
      o < p.elems.length ∧ pagesLen (ql.data.take i) + o = index := by
  obtain ⟨hsum, -⟩ := hW
  unfold find
  rw [if_neg (by omega)]
  by_cases hbr : index < ql.size / 2
  · rw [if_pos hbr]
    have hiss := findFrontAux_isSome ql.data 0 0 index (by omega) (by omega)
    obtain ⟨⟨i, o⟩, hio⟩ := Option.isSome_iff_exists.mp hiss
    obtain ⟨k, p, hik, hp, ho, hsumk⟩ := findFrontAux_spec ql.data 0 0 index (by omega) hio
    subst hik
    refine ⟨0 + k, o, p, hio, by simpa using hp, ho, ?_⟩
    simp only [Nat.zero_add]
    omega
  · rw [if_neg hbr]
    have hne : ql.data ≠ [] := by
      intro hcon
      rw [hcon, pagesLen_nil] at hsum
      omega
    have hlen : 0 < ql.data.length := List.length_pos.mpr hne
    have htake : ql.data.take (ql.data.length - 1 + 1) = ql.data := by
      rw [show ql.data.length - 1 + 1 = ql.data.length from by omega]
      exact List.take_length ..
    have hiss := findBackAux_isSome ql.data.reverse (ql.data.length - 1)
      (ql.size : Int) index (by exact_mod_cast (by omega : index < ql.size))
      (by rw [pagesLen_reverse, ← hsum]; omega)
    obtain ⟨⟨i, o⟩, hio⟩ := Option.isSome_iff_exists.mp hiss
    obtain ⟨p, hp, ho, -, heq⟩ := findBackAux_spec (ql.data.length - 1) ql.data
      (ql.size : Int) index (by omega) (by exact_mod_cast (by omega : index < ql.size))
      (by rw [htake]; exact hio)
    refine ⟨i, o, p, hio, hp, ho, ?_⟩
    rw [htake] at heq
    have hmono : pagesLen (ql.data.take i) ≤ pagesLen ql.data := pagesLen_take_le ..
    omega

theorem pagesLen_set_insertAt (l : List (Page α)) {i : Nat} {p : Page α}
    (hp : l[i]? = some p) (e1 e2 : List α) (c1 c2 : Nat) :
    pagesLen (insertAt (i + 1) ⟨e2, c2⟩ (l.set i ⟨e1, c1⟩)) + p.elems.length
      = pagesLen l + e1.length + e2.length := by
  rw [pagesLen_insertAt]
  simp only
  have := pagesLen_set (⟨e1, c1⟩ : Page α) hp
  simp only at this
  omega

/-- `Insert` preserves `SizeInv` (for every capacity-growth function). -/
theorem sizeInv_insert {grow : Nat → Nat → Nat} {ql : QuickList α} {index : Nat}
    {v : α} {ql' : QuickList α}
    (hW : ql.SizeInv) (h : Insert grow ql index v = some ql') : ql'.SizeInv := by
  unfold Insert at h
  by_cases hidx : index = ql.size
  · rw [if_pos hidx] at h
    simp only [Option.some.injEq] at h
    exact h ▸ sizeInv_add hW v
  rw [if_neg hidx] at h
  cases hf : ql.find index with
  | none =>
    rw [hf] at h
    cases h
  | some io =>
  rcases io with ⟨i, o⟩
  simp only [hf] at h
  obtain ⟨p0, hp0, ho⟩ := find_valid hf
  cases hp : ql.data[i]? with
  | none =>
    rw [hp] at h
    cases h
  | some p =>
  simp only [hp] at h
  have hpp : p0 = p := by
    rw [hp] at hp0
    exact (Option.some.inj hp0).symm
  subst hpp
  by_cases hfull : p0.elems.length < pageSize
  · rw [if_pos hfull] at h
    simp only [Option.some.injEq] at h
    subst h
    constructor
    · show ql.size + 1 = pagesLen (ql.data.set i _)
      have hlen : (insertAt o v p0.elems).length = p0.elems.length + 1 :=
        insertAt_length v (by omega)
      have hset := pagesLen_set (⟨insertAt o v p0.elems,
        if p0.elems.length + 1 ≤ p0.cap then p0.cap
        else grow (p0.elems.length + 1) p0.cap⟩ : Page α) hp
      simp only at hset
      have hsum := hW.1
      omega
    · intro q hq
      rcases List.mem_or_eq_of_mem_set hq with hold | rfl
      · exact hW.2 q hold
      · exact insertAt_ne_nil o v p0.elems
  · rw [if_neg hfull] at h
    have hp512 : pageSize ≤ p0.elems.length := by omega
    have hhalfpos : 0 < pageSize / 2 := by norm_num [pageSize]
    have htklen : (p0.elems.take (pageSize / 2)).length = pageSize / 2 := by
      simp only [List.length_take]
      omega
    have hdrlen : (p0.elems.drop (pageSize / 2)).length
        = p0.elems.length - pageSize / 2 := by
      simp only [List.length_drop]
    by_cases hhalf : o < pageSize / 2
    · rw [if_pos hhalf] at h
      simp only [Option.some.injEq] at h
      subst h
      constructor
      · show ql.size + 1 = pagesLen (insertAt (i + 1) _ (ql.data.set i _))
        have hkey := pagesLen_set_insertAt ql.data hp
          (insertAt o v (p0.elems.take (pageSize / 2)))
          (p0.elems.drop (pageSize / 2))
          (if pageSize / 2 + 1 ≤ p0.cap then p0.cap else grow (pageSize / 2 + 1) p0.cap)
          (grow (p0.elems.drop (pageSize / 2)).length 0)
        have hlen1 : (insertAt o v (p0.elems.take (pageSize / 2))).length
            = pageSize / 2 + 1 := by
          rw [insertAt_length v (by omega)]
          omega
        have hsum := hW.1
        omega
      · intro q hq
        rcases mem_insertAt hq with rfl | hq'
        · show p0.elems.drop (pageSize / 2) ≠ []
          refine List.ne_nil_of_length_pos ?_
          omega
        · rcases List.mem_or_eq_of_mem_set hq' with hold | rfl
          · exact hW.2 q hold
          · exact insertAt_ne_nil o v (p0.elems.take (pageSize / 2))
    · rw [if_neg hhalf] at h
      simp only [Option.some.injEq] at h
      subst h
      constructor
      · show ql.size + 1 = pagesLen (insertAt (i + 1) _ (ql.data.set i _))
        have hkey := pagesLen_set_insertAt ql.data hp
          (p0.elems.take (pageSize / 2))
          (insertAt (o - pageSize / 2) v (p0.elems.drop (pageSize / 2)))
          p0.cap
          (if (p0.elems.drop (pageSize / 2)).length + 1
              ≤ grow (p0.elems.drop (pageSize / 2)).length 0
            then grow (p0.elems.drop (pageSize / 2)).length 0
            else grow ((p0.elems.drop (pageSize / 2)).length + 1)
              (grow (p0.elems.drop (pageSize / 2)).length 0))
        have hlen2 : (insertAt (o - pageSize / 2) v (p0.elems.drop (pageSize / 2))).length
            = (p0.elems.drop (pageSize / 2)).length + 1 := by
          refine insertAt_length v ?_
          omega
        have hsum := hW.1
        omega
      · intro q hq
        rcases mem_insertAt hq with rfl | hq'
        · exact insertAt_ne_nil (o - pageSize / 2) v (p0.elems.drop (pageSize / 2))
        · rcases List.mem_or_eq_of_mem_set hq' with hold | rfl
          · exact hW.2 q hold
          · show p0.elems.take (pageSize / 2) ≠ []
            refine List.ne_nil_of_length_pos ?_
            omega

/-- The `RemoveAllByVal` loop preserves `SizeInv`. -/
theorem sizeInv_ravLoop {pred : α → Bool} :
    ∀ (fuel : Nat) (ql : QuickList α) (it : iterator) (r : Nat)
      {ql' : QuickList α} {r' : Nat},
      ql.SizeInv → ravLoop pred fuel ql it r = some (ql', r') → ql'.SizeInv := by
  intro fuel
  induction fuel with
  | zero =>
    intro ql it r ql' r' hW h
    cases h
  | succ f ih =>
    intro ql it r ql' r' hW h
    unfold ravLoop at h
    by_cases hend : ql.atEnd it
    · rw [if_pos hend] at h
      simp only [Option.some.injEq, Prod.mk.injEq] at h
      exact h.1 ▸ hW
    rw [if_neg hend] at h
    cases hget : ql.iterGet it with
    | none =>
      rw [hget] at h
      cases h
    | some v =>
    simp only [hget] at h
    by_cases hpred : pred v
    · rw [if_pos hpred] at h
      cases hrem : ql.iterRemove it with
      | none =>
        rw [hrem] at h
        cases h
      | some res =>
      rcases res with ⟨val, qlx, itx⟩
      simp only [hrem] at h
      exact ih qlx itx (r + 1) (sizeInv_iterRemove hW hrem) h
    · rw [if_neg hpred] at h
      cases hnext : ql.iterNext it with
      | none =>
        rw [hnext] at h
        cases h
      | some res =>
      rcases res with ⟨b, itx⟩
      simp only [hnext] at h
      exact ih ql itx r hW h

/-- The `RemoveByVal` loop preserves `SizeInv`. -/
theorem sizeInv_rbvLoop {pred : α → Bool} {count : Int} :
    ∀ (fuel : Nat) (ql : QuickList α) (it : iterator) (r : Nat)
      {ql' : QuickList α} {r' : Nat},
      ql.SizeInv → rbvLoop pred count fuel ql it r = some (ql', r') → ql'.SizeInv := by
  intro fuel
  induction fuel with
  | zero =>
    intro ql it r ql' r' hW h
    cases h
  | succ f ih =>
    intro ql it r ql' r' hW h
    unfold rbvLoop at h
    by_cases hend : ql.atEnd it
    · rw [if_pos hend] at h
      simp only [Option.some.injEq, Prod.mk.injEq] at h
      exact h.1 ▸ hW
    rw [if_neg hend] at h
    cases hget : ql.iterGet it with
    | none =>
      rw [hget] at h
      cases h
    | some v =>
    simp only [hget] at h
    by_cases hpred : pred v
    · rw [if_pos hpred] at h
      cases hrem : ql.iterRemove it with
      | none =>
        rw [hrem] at h
        cases h
      | some res =>
      rcases res with ⟨val, qlx, itx⟩
      simp only [hrem] at h
      by_cases hcnt : ((r + 1 : Nat) : Int) = count
      · rw [if_pos hcnt] at h
        simp only [Option.some.injEq, Prod.mk.injEq] at h
        exact h.1 ▸ sizeInv_iterRemove hW hrem
      · rw [if_neg hcnt] at h
        exact ih qlx itx (r + 1) (sizeInv_iterRemove hW hrem) h
    · rw [if_neg hpred] at h
      cases hnext : ql.iterNext it with
      | none =>
        rw [hnext] at h
        cases h
      | some res =>
      rcases res with ⟨b, itx⟩
      simp only [hnext] at h
      exact ih ql itx r hW h

/-- The `ReverseRemoveByVal` loop preserves `SizeInv`. -/
theorem sizeInv_rrbvLoop {pred : α → Bool} {count : Int} :
    ∀ (fuel : Nat) (ql : QuickList α) (it : iterator) (r : Nat)
      {ql' : QuickList α} {r' : Nat},
      ql.SizeInv → rrbvLoop pred count fuel ql it r = some (ql', r') → ql'.SizeInv := by
  intro fuel
  induction fuel with
  | zero =>
    intro ql it r ql' r' hW h
    cases h
  | succ f ih =>
    intro ql it r ql' r' hW h
    unfold rrbvLoop at h
    by_cases hend : ql.atBegin it
    · rw [if_pos hend] at h
      simp only [Option.some.injEq, Prod.mk.injEq] at h
      exact h.1 ▸ hW
    rw [if_neg hend] at h
    cases hget : ql.iterGet it with
    | none =>
      rw [hget] at h
      cases h
    | some v =>
    simp only [hget] at h
    by_cases hpred : pred v
    · rw [if_pos hpred] at h
      cases hrem : ql.iterRemove it with
      | none =>
        rw [hrem] at h
        cases h
      | some res =>
      rcases res with ⟨val, qlx, itx⟩
      simp only [hrem] at h
      by_cases hcnt : ((r + 1 : Nat) : Int) = count
      · rw [if_pos hcnt] at h
        simp only [Option.some.injEq, Prod.mk.injEq] at h
        exact h.1 ▸ sizeInv_iterRemove hW hrem
      · rw [if_neg hcnt] at h
        cases hprev : qlx.iterPrev itx with
        | none =>
          rw [hprev] at h
          cases h
        | some res2 =>
        rcases res2 with ⟨b, itx2⟩
        simp only [hprev] at h
        exact ih qlx itx2 (r + 1) (sizeInv_iterRemove hW hrem) h
    · rw [if_neg hpred] at h
      cases hprev : ql.iterPrev it with
      | none =>
        rw [hprev] at h
        cases h
      | some res =>
      rcases res with ⟨b, itx⟩
      simp only [hprev] at h
      exact ih ql itx r hW h

/-- `RemoveAllByVal` preserves `SizeInv`. -/
theorem sizeInv_removeAllByVal {pred : α → Bool} {fuel : Nat} {ql ql' : QuickList α}
    {r : Nat} (hW : ql.SizeInv) (h : RemoveAllByVal pred fuel ql = some (ql', r)) :
    ql'.SizeInv := by
  unfold RemoveAllByVal at h
  cases hf : ql.find 0 with
  | none =>
    rw [hf] at h
    cases h
  | some io =>
  rcases io with ⟨i, o⟩
  simp only [hf] at h
  exact sizeInv_ravLoop fuel ql _ 0 hW h

/-- `RemoveByVal` preserves `SizeInv`. -/
theorem sizeInv_removeByVal {pred : α → Bool} {count : Int} {fuel : Nat}
    {ql ql' : QuickList α} {r : Nat}
    (hW : ql.SizeInv) (h : RemoveByVal pred count fuel ql = some (ql', r)) :
    ql'.SizeInv := by
  unfold RemoveByVal at h
  by_cases hz : ql.size = 0
  · rw [if_pos hz] at h
    simp only [Option.some.injEq, Prod.mk.injEq] at h
    exact h.1 ▸ hW
  rw [if_neg hz] at h
  cases hf : ql.find 0 with
  | none =>
    rw [hf] at h
    cases h
  | some io =>
  rcases io with ⟨i, o⟩
  simp only [hf] at h
  exact sizeInv_rbvLoop fuel ql _ 0 hW h

/-- `ReverseRemoveByVal` preserves `SizeInv`. -/
theorem sizeInv_reverseRemoveByVal {pred : α → Bool} {count : Int} {fuel : Nat}
    {ql ql' : QuickList α} {r : Nat}
    (hW : ql.SizeInv) (h : ReverseRemoveByVal pred count fuel ql = some (ql', r)) :
    ql'.SizeInv := by
  unfold ReverseRemoveByVal at h
  by_cases hz : ql.size = 0
  · rw [if_pos hz] at h
    simp only [Option.some.injEq, Prod.mk.injEq] at h
    exact h.1 ▸ hW
  rw [if_neg hz] at h
  cases hf : ql.find (ql.size - 1) with
  | none =>
    rw [hf] at h
    cases h
  | some io =>
  rcases io with ⟨i, o⟩
  simp only [hf] at h
  exact sizeInv_rrbvLoop fuel ql _ 0 hW h

/-- Every state reachable by the eight public operations satisfies `SizeInv`. -/
theorem sizeInv_of_reachable {ql : QuickList α} (h : ql.Reachable) : ql.SizeInv := by
  induction h with
  | new => exact sizeInv_new
  | add ql v _ ih => exact sizeInv_add ih v
  | insert grow ql index v ql' _ heq ih => exact sizeInv_insert ih heq
  | set ql index v ql' _ heq ih => exact sizeInv_set ih heq
  | remove ql index val ql' _ heq ih => exact sizeInv_remove ih heq
  | removeLast ql val ql' _ heq ih => exact sizeInv_removeLast ih heq
  | removeByVal pred count fuel ql ql' r _ heq ih => exact sizeInv_removeByVal ih heq
  | reverseRemoveByVal pred count fuel ql ql' r _ heq ih =>
    exact sizeInv_reverseRemoveByVal ih heq
  | removeAllByVal pred fuel ql ql' r _ heq ih => exact sizeInv_removeAllByVal ih heq

end QuickList

/-- C4: for every QuickList reachable by any sequence of `Add`, `Insert`, `Set`,
`Remove`, `RemoveLast`, `RemoveByVal`, `ReverseRemoveByVal` and `RemoveAllByVal`,
the `size` field (returned by `Len`) equals the sum of the lengths of all pages,
and no empty page remains in the page list. -/
theorem quicklist_size_invariant {α : Type} (ql : QuickList α) (h : ql.Reachable) :
    ql.Len = QuickList.pagesLen ql.data ∧ ∀ p ∈ ql.data, p.elems ≠ [] :=
  QuickList.sizeInv_of_reachable h

/-- Witness for `quicklist_size_invariant` on the concrete trace
`NewQuickList; Add 5; Add 6`. -/
theorem quicklist_size_invariant_witness :
    (((QuickList.NewQuickList Nat).Add 5).Add 6).Len
        = QuickList.pagesLen (((QuickList.NewQuickList Nat).Add 5).Add 6).data ∧
      ∀ p ∈ (((QuickList.NewQuickList Nat).Add 5).Add 6).data, p.elems ≠ [] :=
  quicklist_size_invariant _
    (QuickList.Reachable.add _ 6 (QuickList.Reachable.add _ 5 QuickList.Reachable.new))

/-- `addN (n+1)` on the empty list yields one page of `n+1` zeros while it fits a
single page. -/
theorem addN_replicate :
    ∀ n : Nat, n < pageSize →
      addN (n + 1) (QuickList.NewQuickList Nat)
        = ⟨[⟨List.replicate (n + 1) 0, pageSize⟩], n + 1⟩ := by
  intro n
  induction n with
  | zero =>
    intro _
    rfl
  | succ m ih =>
    intro hlt
    show (addN (m + 1) (QuickList.NewQuickList Nat)).Add 0 = _
    rw [ih (by omega)]
    have hne : ¬((⟨List.replicate (m + 1) (0 : Nat), pageSize⟩ : Page Nat).elems.length
        = (⟨List.replicate (m + 1) (0 : Nat), pageSize⟩ : Page Nat).cap) := by
      simp only [List.length_replicate]
      omega
    unfold QuickList.Add
    rw [List.getLast?_singleton]
    show (if (⟨List.replicate (m + 1) (0 : Nat), pageSize⟩ : Page Nat).elems.length
        = (⟨List.replicate (m + 1) (0 : Nat), pageSize⟩ : Page Nat).cap then _ else _)
      = (⟨[⟨List.replicate (m + 1 + 1) 0, pageSize⟩], m + 1 + 1⟩ : QuickList Nat)
    rw [if_neg hne]
    simp [List.replicate_succ' (m + 1)]

/-- `addN` keeps a list reachable. -/
theorem reachable_addN (n : Nat) {ql : QuickList Nat} (h : ql.Reachable) :
    (addN n ql).Reachable := by
  induction n with
  | zero => exact h
  | succ m ih => exact QuickList.Reachable.add _ 0 ih

set_option maxRecDepth 100000 in
/-- Evaluating `Insert 0 99` on the full single page of 1024 zeros: the page is
split into halves of 513 (with the new element) and 512 elements. -/
theorem insert_full_page_splits :
    QuickList.Insert growExact ⟨[⟨List.replicate 1024 0, 1024⟩], 1024⟩ 0 99
      = some qlC3 := by
  decide

/-- C3 counterexample: the state reached by 1024 `Add`s followed by one `Insert`
at the head is reachable, yet its first page holds 513 ≠ 1024 elements while not
being the last page. -/
theorem quicklist_interior_full_counterexample :
    qlC3.Reachable ∧ ¬ qlC3.InteriorFull := by
  constructor
  · refine QuickList.Reachable.insert growExact
      (addN 1024 (QuickList.NewQuickList Nat)) 0 99 qlC3
      (reachable_addN 1024 QuickList.Reachable.new) ?_
    rw [show addN 1024 (QuickList.NewQuickList Nat)
        = ⟨[⟨List.replicate 1024 0, pageSize⟩], 1024⟩ from
      addN_replicate 1023 (by norm_num [pageSize])]
    exact insert_full_page_splits
  · intro hIF
    have h513 := hIF 0 ⟨99 :: List.replicate 512 0, 1024⟩ (by norm_num [qlC3]) rfl
    simp only [List.length_cons, List.length_replicate, pageSize] at h513
    omega

namespace QuickList

variable {α : Type}

/-- Case analysis on the result of `Add`. -/
theorem add_cases (ql : QuickList α) (v : α) :
    (ql.data = [] ∧ ql.Add v = ⟨[⟨[v], pageSize⟩], ql.size + 1⟩) ∨
    (∃ back, ql.data.getLast? = some back ∧ back.elems.length = back.cap ∧
      ql.Add v = ⟨ql.data ++ [⟨[v], pageSize⟩], ql.size + 1⟩) ∨
    (∃ back, ql.data.getLast? = some back ∧ back.elems.length ≠ back.cap ∧
      ql.Add v = ⟨ql.data.dropLast ++ [⟨back.elems ++ [v], back.cap⟩], ql.size + 1⟩) := by
  cases hb : ql.data.getLast? with
  | none =>
    left
    have hdata : ql.data = [] := by
      cases hd : ql.data with
      | nil => rfl
      | cons x xs =>
        rw [hd] at hb
        simp at hb
    refine ⟨hdata, ?_⟩
    unfold Add
    rw [hb]
  | some back =>
    by_cases hfull : back.elems.length = back.cap
    · right; left
      refine ⟨back, rfl, hfull, ?_⟩
      unfold Add
      rw [hb]
      show (if back.elems.length = back.cap then _ else _) = _
      rw [if_pos hfull]
    · right; right
      refine ⟨back, rfl, hfull, ?_⟩
      unfold Add
      rw [hb]
      show (if back.elems.length = back.cap then _ else _) = _
      rw [if_neg hfull]

theorem getElem?_dropLast_of_lt {β : Type} {l : List β} {i : Nat}
    (h : i < l.length - 1) : l.dropLast[i]? = l[i]? := by
  rw [List.dropLast_eq_take, List.getElem?_take]
  rw [if_pos h]

/-- Auxiliary invariant for the Add/Set/RemoveLast fragment: every page has
capacity `pageSize`, is non-empty and holds at most `pageSize` elements, and
every non-last page is exactly full. -/
theorem interiorFull_of_reachableASR {α : Type} {ql : QuickList α}
    (h : ql.ReachableASR) :
    (∀ p ∈ ql.data, p.cap = pageSize ∧ p.elems ≠ [] ∧ p.elems.length ≤ pageSize) ∧
      ql.InteriorFull := by
  induction h with
  | new =>
    constructor
    · intro p hp
      cases hp
    · intro i p h1 h2
      simp [QuickList.NewQuickList] at h1
  | add ql v _ ih =>
    obtain ⟨ihcap, ihfull⟩ := ih
    rcases QuickList.add_cases ql v with ⟨hdata, heq⟩ | ⟨back, hb, hfull, heq⟩ |
      ⟨back, hb, hfull, heq⟩
    · rw [heq]
      constructor
      · intro p hp
        rcases List.mem_singleton.mp hp with rfl
        exact ⟨rfl, by simp, by norm_num [pageSize]⟩
      · intro i p h1 h2
        simp only [List.length_singleton] at h1
        omega
    · -- the back page was exactly at capacity: a new singleton page is appended
      rw [heq]
      have hbmem : back ∈ ql.data := by
        have hdecomp : ql.data.dropLast ++ [back] = ql.data :=
          List.dropLast_append_getLast? back hb
        rw [← hdecomp]
        exact List.mem_append.mpr (Or.inr (List.mem_singleton.mpr rfl))
      obtain ⟨hbcap, -, -⟩ := ihcap back hbmem
      constructor
      · intro p hp
        rcases List.mem_append.mp hp with hold | hnew
        · exact ihcap p hold
        · rcases List.mem_singleton.mp hnew with rfl
          exact ⟨rfl, by simp, by norm_num [pageSize]⟩
      · intro i p h1 h2
        simp only [List.length_append, List.length_singleton] at h1
        have hi : i < ql.data.length := by omega
        rw [List.getElem?_append, if_pos hi] at h2
        by_cases hlast : i + 1 < ql.data.length
        · exact ihfull i p hlast h2
        · have hieq : i = ql.data.length - 1 := by omega
          have hgl : ql.data[ql.data.length - 1]? = some back := by
            rw [← List.getLast?_eq_getElem?]
            exact hb
          rw [hieq] at h2
          rw [hgl] at h2
          rcases Option.some.inj h2 with rfl
          rw [hfull, hbcap]
    · -- the back page had room: the element is appended in place
      rw [heq]
      have hdecomp : ql.data.dropLast ++ [back] = ql.data :=
        List.dropLast_append_getLast? back hb
      have hbmem : back ∈ ql.data := by
        rw [← hdecomp]
        exact List.mem_append.mpr (Or.inr (List.mem_singleton.mpr rfl))
      obtain ⟨hbcap, -, hble⟩ := ihcap back hbmem
      have hblt : back.elems.length < pageSize := by
        rw [hbcap] at hfull
        omega
      have hlen : ql.data ≠ [] := by
        intro hcon
        rw [hcon] at hb
        simp at hb
      have hlenpos : 0 < ql.data.length := List.length_pos.mpr hlen
      constructor
      · intro p hp
        rcases List.mem_append.mp hp with hold | hnew
        · exact ihcap p (List.dropLast_subset _ hold)
        · rcases List.mem_singleton.mp hnew with rfl
          refine ⟨hbcap, by simp, ?_⟩
          simp only [List.length_append, List.length_singleton]
          omega
      · intro i p h1 h2
        simp only [List.length_append, List.length_singleton, List.length_dropLast] at h1
        have hi : i < ql.data.dropLast.length := by
          simp only [List.length_dropLast]
          omega
        rw [List.getElem?_append, if_pos hi] at h2
        rw [getElem?_dropLast_of_lt (by simp only [List.length_dropLast] at hi; omega)] at h2
        exact ihfull i p (by omega) h2
  | set ql index v ql' _ heq ih =>
    obtain ⟨ihcap, ihfull⟩ := ih
    unfold Set at heq
    cases hf : ql.find index with
    | none =>
      rw [hf] at heq
      cases heq
    | some io =>
    rcases io with ⟨i, o⟩
    simp only [hf] at heq
    unfold iterSet at heq
    simp only [] at heq
    cases hp : ql.data[i]? with
    | none =>
      rw [hp] at heq
      cases heq
    | some p =>
    simp only [hp] at heq
    by_cases hoff : ((o : Int) : Int) < 0 ∨ (p.elems.length : Int) ≤ (o : Int)
    · rw [if_pos hoff] at heq
      cases heq
    rw [if_neg hoff] at heq
    simp only [Option.some.injEq] at heq
    subst heq
    have hpmem : p ∈ ql.data := List.getElem?_mem hp
    obtain ⟨hpcap, hpne, hple⟩ := ihcap p hpmem
    constructor
    · intro q hq
      rcases List.mem_or_eq_of_mem_set hq with hold | rfl
      · exact ihcap q hold
      · refine ⟨hpcap, ?_, by simp only [List.length_set]; exact hple⟩
        intro hcon
        have := congrArg List.length hcon
        simp only [List.length_set, List.length_nil] at this
        exact hpne (List.length_eq_zero.mp this)
    · intro j q h1 h2
      simp only [List.length_set] at h1
      rw [List.getElem?_set] at h2
      by_cases hij : i = j
      · rw [if_pos hij] at h2
        have hilt : i < ql.data.length := lt_length_of_getElem?_some hp
        rw [if_pos hilt] at h2
        rcases Option.some.inj h2 with rfl
        simp only [List.length_set]
        exact ihfull j p (by omega) (hij ▸ hp)
      · rw [if_neg hij] at h2
        exact ihfull j q h1 h2
  | removeLast ql val ql' _ heq ih =>
    obtain ⟨ihcap, ihfull⟩ := ih
    unfold RemoveLast at heq
    split at heq
    · simp only [Option.some.injEq, Prod.mk.injEq] at heq
      obtain ⟨-, h2⟩ := heq
      subst h2
      exact ⟨ihcap, ihfull⟩
    next hlen0 =>
    split at heq
    · cases heq
    next lastPage hb =>
    split at heq
    · cases heq
    next v0 hval =>
    have hdecomp : ql.data.dropLast ++ [lastPage] = ql.data :=
      List.dropLast_append_getLast? lastPage hb
    have hlpmem : lastPage ∈ ql.data := by
      rw [← hdecomp]
      exact List.mem_append.mpr (Or.inr (List.mem_singleton.mpr rfl))
    obtain ⟨hlpcap, hlpne, hlple⟩ := ihcap lastPage hlpmem
    have hne : ql.data ≠ [] := by
      intro hcon
      rw [hcon] at hb
      simp at hb
    have hlenpos : 0 < ql.data.length := List.length_pos.mpr hne
    split at heq
    next h1len =>
      simp only [Option.some.injEq, Prod.mk.injEq] at heq
      obtain ⟨-, h2⟩ := heq
      subst h2
      constructor
      · intro q hq
        exact ihcap q (List.dropLast_subset _ hq)
      · intro i q hi hq
        simp only [List.length_dropLast] at hi
        rw [getElem?_dropLast_of_lt (by omega)] at hq
        exact ihfull i q (by omega) hq
    next h1len =>
      have hlp1 : 1 ≤ lastPage.elems.length := by
        have : lastPage.elems ≠ [] := hlpne
        have := List.length_pos.mpr this
        omega
      have hlp2 : 2 ≤ lastPage.elems.length := by
        rcases Nat.lt_or_ge lastPage.elems.length 2 with h | h
        · exfalso
          have : lastPage.elems.length = 1 := by omega
          exact h1len this
        · exact h
      simp only [Option.some.injEq, Prod.mk.injEq] at heq
      obtain ⟨-, h2⟩ := heq
      subst h2
      constructor
      · intro q hq
        rcases List.mem_append.mp hq with hold | hnew
        · exact ihcap q (List.dropLast_subset _ hold)
        · rcases List.mem_singleton.mp hnew with rfl
          refine ⟨hlpcap, ?_, ?_⟩
          · intro hcon
            have := congrArg List.length hcon
            simp only [List.length_dropLast, List.length_nil] at this
            omega
          · simp only [List.length_dropLast]
            omega
      · intro i q hi hq
        simp only [List.length_append, List.length_singleton, List.length_dropLast] at hi
        have hi' : i < ql.data.dropLast.length := by
          simp only [List.length_dropLast]
          omega
        rw [List.getElem?_append, if_pos hi'] at hq
        rw [getElem?_dropLast_of_lt (by simp only [List.length_dropLast] at hi'; omega)] at hq
        exact ihfull i q (by omega) hq

end QuickList

/-- C3 amended: for every QuickList reachable by sequences of `Add`, `Set` and
`RemoveLast` (the operations that preserve full interior pages), every page
except the last holds exactly `pageSize` (1024) elements; in particular only the
tail page may be non-full after `Add`. -/
theorem quicklist_interior_full_addonly {α : Type} (ql : QuickList α)
    (h : ql.ReachableASR) : ql.InteriorFull :=
  (QuickList.interiorFull_of_reachableASR h).2

/-- Witness for `quicklist_interior_full_addonly` on the trace
`NewQuickList; Add 5; Add 6`. -/
theorem quicklist_interior_full_addonly_witness :
    (((QuickList.NewQuickList Nat).Add 5).Add 6).InteriorFull :=
  quicklist_interior_full_addonly _
    (QuickList.ReachableASR.add _ 6 (QuickList.ReachableASR.add _ 5 QuickList.ReachableASR.new))

/-- C9 (code bug): on the two-page list `[[1], [5]]` with the predicate matching
only `5`, the scan removes the sole element of the last page; `iterator.remove`
then assumes the whole list emptied and nils the node although the first page
remains, and the next loop round dereferences the nil node — `RemoveAllByVal`
faults for every fuel, so the `none` is a genuine panic, not fuel exhaustion.
(`RemoveAllByVal` also faults on the empty list, where its unguarded `find(0)`
panics.) -/
theorem removeallbyval_nil_node_panics :
    ∀ fuel : Nat,
      QuickList.RemoveAllByVal predC9 fuel qlC9 = none ∧
      QuickList.RemoveAllByVal predC9 fuel (QuickList.NewQuickList Nat) = none := by
  have h2 : ∀ f : Nat, QuickList.ravLoop predC9 f
      ⟨[⟨[1], 1024⟩], 1⟩ ⟨none, 0⟩ 1 = none := by
    intro f
    cases f with
    | zero => rfl
    | succ g => rfl
  have h1 : ∀ f : Nat, QuickList.ravLoop predC9 f qlC9 ⟨some 1, 0⟩ 0 = none := by
    intro f
    cases f with
    | zero => rfl
    | succ g =>
      show QuickList.ravLoop predC9 g ⟨[⟨[1], 1024⟩], 1⟩ ⟨none, 0⟩ 1 = none
      exact h2 g
  have h0 : ∀ f : Nat, QuickList.ravLoop predC9 f qlC9 ⟨some 0, 0⟩ 0 = none := by
    intro f
    cases f with
    | zero => rfl
    | succ g =>
      show QuickList.ravLoop predC9 g qlC9 ⟨some 1, 0⟩ 0 = none
      exact h1 g
  intro fuel
  constructor
  · show QuickList.ravLoop predC9 fuel qlC9 ⟨some 0, 0⟩ 0 = none
    exact h0 fuel
  · rfl

namespace QuickList

variable {α : Type}

theorem flatten_pages_length (l : List (Page α)) :
    (l.map Page.elems).flatten.length = pagesLen l := by
  rw [List.length_flatten, List.map_map]
  rfl

theorem insertAt_append_left {β : Type} :
    ∀ (A D : List β) (o : Nat) (v : β),
      insertAt (A.length + o) v (A ++ D) = A ++ insertAt o v D := by
  intro A
  induction A with
  | nil =>
    intro D o v
    simp [insertAt]
  | cons a as ih =>
    intro D o v
    simp only [insertAt, List.length_cons, List.cons_append]
    rw [show as.length + 1 + o = (as.length + o) + 1 from by omega]
    rw [List.take_succ_cons, List.drop_succ_cons]
    have := ih D o v
    simp only [insertAt] at this
    rw [List.cons_append, this]

theorem insertAt_append_of_le {β : Type} (C B : List β) (o : Nat) (v : β)
    (h : o ≤ C.length) :
    insertAt o v (C ++ B) = insertAt o v C ++ B := by
  unfold insertAt
  rw [List.take_append_of_le_length h, List.drop_append_of_le_length h]
  simp

theorem insertAt_length_self {β : Type} (l : List β) (v : β) :
    insertAt l.length v l = l ++ [v] := by
  unfold insertAt
  rw [List.take_length, List.drop_length]

theorem add_size (ql : QuickList α) (v : α) : (ql.Add v).size = ql.size + 1 := by
  rcases add_cases ql v with ⟨-, heq⟩ | ⟨back, -, -, heq⟩ | ⟨back, -, -, heq⟩ <;>
    rw [heq]

theorem flatten_add (ql : QuickList α) (v : α) :
    (ql.Add v).flatten = ql.flatten ++ [v] := by
  rcases add_cases ql v with ⟨hdata, heq⟩ | ⟨back, hb, -, heq⟩ | ⟨back, hb, -, heq⟩
  · rw [heq]
    unfold flatten
    rw [hdata]
    rfl
  · rw [heq]
    unfold flatten
    simp
  · rw [heq]
    unfold flatten
    have hdecomp := List.dropLast_append_getLast? back hb
    conv_rhs => rw [← hdecomp]
    simp

theorem insertAt_set_decomp {l : List (Page α)} {i : Nat} (hi : i < l.length)
    (x y : Page α) :
    insertAt (i + 1) y (l.set i x) = l.take i ++ x :: y :: l.drop (i + 1) := by
  rw [List.set_eq_take_append_cons_drop, if_pos hi]
  have hlen : (l.take i).length = i := by
    simp only [List.length_take]
    omega
  unfold insertAt
  rw [show i + 1 = (l.take i).length + 1 from by omega]
  rw [List.take_append, List.drop_append]
  simp

theorem flatten_decomp {ql : QuickList α} {i : Nat} {p : Page α}
    (hp : ql.data[i]? = some p) :
    ql.flatten = ((ql.data.take i).map Page.elems).flatten ++
      (p.elems ++ ((ql.data.drop (i + 1)).map Page.elems).flatten) := by
  obtain ⟨hdecomp, -⟩ := getElem?_decomp hp
  unfold flatten
  conv_lhs => rw [hdecomp]
  rw [List.map_append, List.flatten_append, List.map_cons, List.flatten_cons]

end QuickList

/-- C7: for every well-formed QuickList with element sequence `s` and every index
`i ≤ size`: `Insert(i, v)` succeeds, yields the element sequence `s` with `v`
inserted at position `i`, and increases `size` by one; moreover when the found
position lies in a full page, that page is split into the two halves
`take (pageSize/2)` and `drop (pageSize/2)`, the value is inserted into the half
containing the position, and the second half becomes a new node immediately after
the first. -/
theorem quicklist_insert_spec :
    ∀ {α : Type} (grow : Nat → Nat → Nat) (ql : QuickList α) (index : Nat) (v : α),
      ql.SizeInv → index ≤ ql.size →
      ∃ ql', QuickList.Insert grow ql index v = some ql' ∧
        ql'.size = ql.size + 1 ∧
        ql'.flatten = insertAt index v ql.flatten ∧
        (∀ i o p, ql.find index = some (i, o) → ql.data[i]? = some p →
          p.elems.length = pageSize →
          ∃ c1 c2,
            ql'.data = ql.data.take i ++
              (if o < pageSize / 2 then
                [⟨insertAt o v (p.elems.take (pageSize / 2)), c1⟩,
                 ⟨p.elems.drop (pageSize / 2), c2⟩]
              else
                [⟨p.elems.take (pageSize / 2), c1⟩,
                 ⟨insertAt (o - pageSize / 2) v (p.elems.drop (pageSize / 2)), c2⟩]) ++
              ql.data.drop (i + 1)) := by
  intro α grow ql index v hW hle
  by_cases hidx : index = ql.size
  · refine ⟨ql.Add v, ?_, QuickList.add_size ql v, ?_, ?_⟩
    · unfold QuickList.Insert
      rw [if_pos hidx]
    · rw [QuickList.flatten_add, hidx]
      have hlen : ql.flatten.length = ql.size := by
        unfold QuickList.flatten
        rw [QuickList.flatten_pages_length]
        exact hW.1.symm
      rw [← hlen, QuickList.insertAt_length_self]
    · intro i o p hfind hp hfull
      exfalso
      unfold QuickList.find at hfind
      rw [if_pos (by omega)] at hfind
      cases hfind
  · have hlt : index < ql.size := by omega
    obtain ⟨i, o, p, hfind, hp, ho, hcanon⟩ := QuickList.find_spec hW hlt
    obtain ⟨hdecomp, hilen⟩ := QuickList.getElem?_decomp hp
    have hflat := QuickList.flatten_decomp hp
    have hAlen : (((ql.data.take i).map Page.elems).flatten).length
        = QuickList.pagesLen (ql.data.take i) := QuickList.flatten_pages_length ..
    have hins : insertAt index v ql.flatten
        = ((ql.data.take i).map Page.elems).flatten ++
          (insertAt o v p.elems ++ ((ql.data.drop (i + 1)).map Page.elems).flatten) := by
      rw [hflat]
      rw [show index = (((ql.data.take i).map Page.elems).flatten).length + o from by omega]
      rw [QuickList.insertAt_append_left]
      rw [QuickList.insertAt_append_of_le p.elems
        ((ql.data.drop (i + 1)).map Page.elems).flatten o v (by omega)]
    by_cases hfull : p.elems.length < pageSize
    · -- insertion into a page with room
      have hInsEq : QuickList.Insert grow ql index v = some
          ⟨ql.data.set i ⟨insertAt o v p.elems,
            if p.elems.length + 1 ≤ p.cap then p.cap else grow (p.elems.length + 1) p.cap⟩,
            ql.size + 1⟩ := by
        unfold QuickList.Insert
        rw [if_neg hidx]
        simp only [hfind, hp]
        rw [if_pos hfull]
      refine ⟨_, hInsEq, rfl, ?_, ?_⟩
      · rw [hins]
        show QuickList.flatten _ = _
        unfold QuickList.flatten
        rw [List.set_eq_take_append_cons_drop, if_pos hilen]
        rw [List.map_append, List.flatten_append, List.map_cons, List.flatten_cons]
      · intro i' o' p' hfind' hp' hfull'
        exfalso
        rw [hfind] at hfind'
        rcases Option.some.inj hfind' with h'
        rcases Prod.mk.injEq .. ▸ h' with ⟨rfl, rfl⟩
        rw [hp] at hp'
        rcases Option.some.inj hp' with rfl
        omega
    · -- insertion into a full page: split
      have hp512 : pageSize ≤ p.elems.length := by omega
      have htklen : (p.elems.take (pageSize / 2)).length = pageSize / 2 := by
        simp only [List.length_take]
        have : pageSize / 2 ≤ p.elems.length := by omega
        omega
      by_cases hhalf : o < pageSize / 2
      · have hInsEq : QuickList.Insert grow ql index v = some
            ⟨insertAt (i + 1)
              ⟨p.elems.drop (pageSize / 2), grow (p.elems.drop (pageSize / 2)).length 0⟩
              (ql.data.set i ⟨insertAt o v (p.elems.take (pageSize / 2)),
                if pageSize / 2 + 1 ≤ p.cap then p.cap else grow (pageSize / 2 + 1) p.cap⟩),
              ql.size + 1⟩ := by
          unfold QuickList.Insert
          rw [if_neg hidx]
          simp only [hfind, hp]
          rw [if_neg hfull]
          rw [if_pos hhalf]
        refine ⟨_, hInsEq, rfl, ?_, ?_⟩
        · rw [hins]
          show QuickList.flatten _ = _
          unfold QuickList.flatten
          rw [QuickList.insertAt_set_decomp hilen]
          rw [List.map_append, List.flatten_append, List.map_cons, List.map_cons,
            List.flatten_cons, List.flatten_cons]
          congr 1
          show insertAt o v (p.elems.take (pageSize / 2)) ++
              (p.elems.drop (pageSize / 2) ++ _) = _
          rw [← List.append_assoc]
          rw [← QuickList.insertAt_append_of_le (p.elems.take (pageSize / 2))
            (p.elems.drop (pageSize / 2)) o v (by omega)]
          rw [List.take_append_drop]
        · intro i' o' p' hfind' hp' hfull'
          rw [hfind] at hfind'
          rcases Option.some.inj hfind' with h'
          rcases Prod.mk.injEq .. ▸ h' with ⟨rfl, rfl⟩
          rw [hp] at hp'
          rcases Option.some.inj hp' with rfl
          refine ⟨if pageSize / 2 + 1 ≤ p.cap then p.cap else grow (pageSize / 2 + 1) p.cap,
            grow (p.elems.drop (pageSize / 2)).length 0, ?_⟩
          rw [if_pos hhalf]
          show insertAt (i + 1) _ (ql.data.set i _) = _
          rw [QuickList.insertAt_set_decomp hilen]
          simp
      · have hInsEq : QuickList.Insert grow ql index v = some
            ⟨insertAt (i + 1)
              ⟨insertAt (o - pageSize / 2) v (p.elems.drop (pageSize / 2)),
                if (p.elems.drop (pageSize / 2)).length + 1
                    ≤ grow (p.elems.drop (pageSize / 2)).length 0
                  then grow (p.elems.drop (pageSize / 2)).length 0
                  else grow ((p.elems.drop (pageSize / 2)).length + 1)
                    (grow (p.elems.drop (pageSize / 2)).length 0)⟩
              (ql.data.set i ⟨p.elems.take (pageSize / 2), p.cap⟩),
              ql.size + 1⟩ := by
          unfold QuickList.Insert
          rw [if_neg hidx]
          simp only [hfind, hp]
          rw [if_neg hfull]
          rw [if_neg hhalf]
        refine ⟨_, hInsEq, rfl, ?_, ?_⟩
        · rw [hins]
          show QuickList.flatten _ = _
          unfold QuickList.flatten
          rw [QuickList.insertAt_set_decomp hilen]
          rw [List.map_append, List.flatten_append, List.map_cons, List.map_cons,
            List.flatten_cons, List.flatten_cons]
          congr 1
          show p.elems.take (pageSize / 2) ++
              (insertAt (o - pageSize / 2) v (p.elems.drop (pageSize / 2)) ++ _) = _
          rw [← List.append_assoc]
          have hkey : p.elems.take (pageSize / 2) ++
              insertAt (o - pageSize / 2) v (p.elems.drop (pageSize / 2))
              = insertAt o v p.elems := by
            have := QuickList.insertAt_append_left (p.elems.take (pageSize / 2))
              (p.elems.drop (pageSize / 2)) (o - pageSize / 2) v
            rw [htklen] at this
            rw [show pageSize / 2 + (o - pageSize / 2) = o from by omega] at this
            rw [List.take_append_drop] at this
            exact this.symm
          rw [hkey]
        · intro i' o' p' hfind' hp' hfull'
          rw [hfind] at hfind'
          rcases Option.some.inj hfind' with h'
          rcases Prod.mk.injEq .. ▸ h' with ⟨rfl, rfl⟩
          rw [hp] at hp'
          rcases Option.some.inj hp' with rfl
          refine ⟨p.cap,
            if (p.elems.drop (pageSize / 2)).length + 1
                ≤ grow (p.elems.drop (pageSize / 2)).length 0
              then grow (p.elems.drop (pageSize / 2)).length 0
              else grow ((p.elems.drop (pageSize / 2)).length + 1)
                (grow (p.elems.drop (pageSize / 2)).length 0), ?_⟩
          rw [if_neg hhalf]
          show insertAt (i + 1) _ (ql.data.set i _) = _
          rw [QuickList.insertAt_set_decomp hilen]
          simp

/-- Witness for `quicklist_insert_spec`: insert `5` at index 0 of the singleton
list `[7]`. -/
theorem quicklist_insert_spec_witness :
    (QuickList.Insert growExact ⟨[⟨[7], 1024⟩], 1⟩ 0 5).isSome = true := by
  obtain ⟨ql', h, -⟩ := quicklist_insert_spec growExact ⟨[⟨[7], 1024⟩], 1⟩ 0 5
    (by constructor <;> decide) (by decide)
  rw [h]
  rfl

end GoRedis
